import Mathlib

/-!
Verification of the diff computation engine of the file-compare repository
(js/diff-engine.js, class DiffEngine) against its specification.

The engine's own code (splitLines, processDiff, detectModifications,
computeCharDiff, groupDiffBlocks, getStats, compare, getDiffBlocks,
getResult) is embedded faithfully below.  The two alignment primitives the
engine calls, Diff.diffLines and Diff.diffChars, belong to the external
jsdiff library and are not part of the repository's sources; they are
modelled from the specification's explicit alignment contract (sections 4.2
and 4.5): an LCS-based segmentation into common / removed-only / added-only
runs whose per-side projections reconstruct the inputs.  Definitions
modelled that way carry a doc comment starting with "Modelled from the
spec:".
-/

/-- Line/span classification tags; the JS source uses the strings
"unchanged" / "added" / "removed" / "modified". -/
inductive Kind where
  | unchanged
  | added
  | removed
  | modified
deriving DecidableEq, Repr

/-- One span of a character-level diff: { text, type } in the source. -/
structure CharSpan where
  text : String
  kind : Kind
deriving DecidableEq, Repr

/-- One line record as built by processDiff: { lineNum, content, type,
charDiff? }.  charDiff is absent (none) until detectModifications fills it
in for modified lines of small inputs. -/
structure Line where
  lineNum : Nat
  content : String
  kind : Kind
  charDiff : Option (List CharSpan)
deriving DecidableEq, Repr

/-- One row of the side-by-side view: { left, right }, each side possibly
absent (null in the source). -/
structure Pair where
  left : Option Line
  right : Option Line
deriving DecidableEq, Repr

/-- One segment of a jsdiff-style diff output: a part with a value and
added/removed flags.  The JS part's value is a newline-joined string that
processDiff immediately re-splits into lines (and drops the phantom empty
element a trailing newline leaves); the model carries the part's line list
(character list for diffChars) directly, so that re-split is the identity
here. -/
structure Seg (α : Type) where
  added : Bool
  removed : Bool
  value : List α
deriving DecidableEq, Repr

/-- One navigation block: { startIndex, endIndex, pairs } from
groupDiffBlocks. -/
structure Block where
  startIndex : Nat
  endIndex : Nat
  pairs : List Pair
deriving DecidableEq, Repr

/-- The structured diff result: { left, right, pairs }.  In the JS source
left/right hold the very objects referenced from pairs (later kind/charDiff
mutations are shared); the model records each line as created, which agrees
with the source on every field the claims read from left/right (lineNum,
content at creation, charDiff before any modification pass ran). -/
structure DiffResult where
  left : List Line
  right : List Line
  pairs : List Pair
deriving DecidableEq, Repr

/-- Statistics record returned by getStats. -/
structure Stats where
  added : Nat
  removed : Nat
  modified : Nat
  unchanged : Nat
  totalDiffs : Nat
  leftLines : Nat
  rightLines : Nat
deriving DecidableEq, Repr

/-- The DiffEngine instance state: this.leftLines, this.rightLines,
this.diffResult, this.diffBlocks, this.maxLinesForCharDiff. -/
structure DiffEngine where
  leftLines : List String
  rightLines : List String
  diffResult : DiffResult
  diffBlocks : List Block
  maxLinesForCharDiff : Nat
deriving DecidableEq, Repr

/-- The constructor: empty caches and the 5000-line char-diff threshold. -/
def DiffEngine.new : DiffEngine :=
  { leftLines := [], rightLines := [], diffResult := ⟨[], [], []⟩,
    diffBlocks := [], maxLinesForCharDiff := 5000 }

/-- Character-level worker for text.split of the regex matching CRLF or LF:
scan the characters, closing the current (reversed) accumulator at each
CRLF or lone LF; a CR not followed by LF is ordinary content (the regex
never matches a lone CR). -/
def splitLinesAux : List Char → List Char → List String
  | [], acc => [String.mk acc.reverse]
  | '\r' :: '\n' :: rest, acc => String.mk acc.reverse :: splitLinesAux rest []
  | '\n' :: rest, acc => String.mk acc.reverse :: splitLinesAux rest []
  | c :: rest, acc => splitLinesAux rest (c :: acc)

/-- DiffEngine.splitLines: `if (!text) return []; return text.split(/\r?\n/)`.
A falsy text argument (the empty string) yields the empty list; otherwise
a plain JS split, which keeps the empty string a trailing terminator
produces as a final element. -/
def splitLines (text : String) : List String :=
  if text = "" then [] else splitLinesAux text.data []

/-- Modelled from the spec: the section 4.1 LineSplitter contract, which
(unlike the source splitLines) excludes the phantom empty trailing element
a terminating newline would otherwise produce.  These are the per-side line
sequences the spec's LineAligner (section 4.2) consumes, standing in for
jsdiff's internal line tokenization. -/
def splitTextSpec (text : String) : List String :=
  let ls := splitLines text
  if ls.getLast? = some "" then ls.dropLast else ls

/-- Joins lines with a single LF; spec-side companion used to state the
splitter's contract as a round trip. -/
def unsplit : List String → String
  | [] => ""
  | [s] => s
  | s :: rest => s ++ "\n" ++ unsplit rest

/-- Joins lines with CRLF; spec-side companion for the CRLF half of the
splitter's contract. -/
def unsplitCRLF : List String → String
  | [] => ""
  | [s] => s
  | s :: rest => s ++ "\r\n" ++ unsplitCRLF rest

/-- Inner worker of the longest-common-subsequence computation, recursing
structurally on the second sequence; f is the LCS against the first
sequence's tail. -/
def lcsGo [DecidableEq α] (a : α) (f : List α → List α) : List α → List α
  | [] => []
  | b :: bs =>
    if a = b then a :: f bs
    else
      let c1 := f (b :: bs)
      let c2 := lcsGo a f bs
      if c2.length ≤ c1.length then c1 else c2

/-- A longest common subsequence of two sequences; the deterministic
tie-break prefers dropping from the first sequence.  Basis of the modelled
alignment (spec section 4.2: any LCS-class algorithm). -/
def lcs [DecidableEq α] : List α → List α → List α
  | [], _ => []
  | a :: as, ys => lcsGo a (fun ys' => lcs as ys') ys

/-- Modelled from the spec: expands a common subsequence into ordered
segments tagged removed-only (source flags: removed = true), added-only
(added = true) or common (both false), the section 4.2 segment list. -/
def alignWith [DecidableEq α] : List α → List α → List α → List (Seg α)
  | xs, ys, [] =>
    (if xs.isEmpty then [] else [⟨false, true, xs⟩])
      ++ (if ys.isEmpty then [] else [⟨true, false, ys⟩])
  | xs, ys, c :: cs =>
    let px := xs.takeWhile (fun a => !(decide (a = c)))
    let sx := xs.dropWhile (fun a => !(decide (a = c)))
    let py := ys.takeWhile (fun a => !(decide (a = c)))
    let sy := ys.dropWhile (fun a => !(decide (a = c)))
    (if px.isEmpty then [] else [⟨false, true, px⟩])
      ++ (if py.isEmpty then [] else [⟨true, false, py⟩])
      ++ ⟨false, false, [c]⟩ :: alignWith sx.tail sy.tail cs

/-- Modelled from the spec: jsdiff's Diff.diffLines (external library; only
its call site `Diff.diffLines(leftText, rightText, ...)` is in the
repository).  Per section 4.2 it aligns the two section-4.1 line sequences
into common / removed-only / added-only segments whose projections
reconstruct each side. -/
def diffLines (leftText rightText : String) : List (Seg String) :=
  let xs := splitTextSpec leftText
  let ys := splitTextSpec rightText
  alignWith xs ys (lcs xs ys)

/-- Modelled from the spec: jsdiff's Diff.diffChars (external library), the
same alignment contract at character granularity (section 4.5). -/
def diffChars (leftLine rightLine : String) : List (Seg Char) :=
  let xs := leftLine.data
  let ys := rightLine.data
  alignWith xs ys (lcs xs ys)

/-- DiffEngine.computeCharDiff: walk the character diff parts, routing
added spans to the right list, removed spans to the left list and common
spans to both. -/
def computeCharDiff (leftLine rightLine : String) :
    List CharSpan × List CharSpan :=
  (diffChars leftLine rightLine).foldl
    (fun acc part =>
      if part.added then
        (acc.1, acc.2 ++ [⟨String.mk part.value, Kind.added⟩])
      else if part.removed then
        (acc.1 ++ [⟨String.mk part.value, Kind.removed⟩], acc.2)
      else
        (acc.1 ++ [⟨String.mk part.value, Kind.unchanged⟩],
         acc.2 ++ [⟨String.mk part.value, Kind.unchanged⟩]))
    ([], [])

/-- A pair with a left line and no right line (`pairs[i].left && !pairs[i].right`). -/
def leftOnly (p : Pair) : Bool := p.left.isSome && p.right.isNone

/-- A pair with a right line and no left line (`!pairs[i].left && pairs[i].right`). -/
def rightOnly (p : Pair) : Bool := p.left.isNone && p.right.isSome

/-- Start condition of a removed run in detectModifications (line 142 of
the source): left present, right absent, left kind removed. -/
def isRemPair (p : Pair) : Bool :=
  match p.left, p.right with
  | some l, none => decide (l.kind = Kind.removed)
  | _, _ => false

/-- Condition on the pair that may start an added run (line 151): left
absent, right present, right kind added. -/
def isAddPair (p : Pair) : Bool :=
  match p.left, p.right with
  | none, some r => decide (r.kind = Kind.added)
  | _, _ => false

/-- Merge of one aligned (removed, added) index in detectModifications'
inner loop (source lines 164-184): both line kinds become modified, the
character diff is attached to both sides when enabled, and the two pairs
collapse into one (the added pair is marked merged and filtered out; its
right line survives in the merged pair). -/
def mergePair (enableCharDiff : Bool) (pr pa : Pair) : Pair :=
  match pr.left, pa.right with
  | some l, some r =>
    let l1 : Line := { l with kind := Kind.modified }
    let r1 : Line := { r with kind := Kind.modified }
    if enableCharDiff then
      let cd := computeCharDiff l1.content
          (if r1.kind = Kind.modified then r1.content else "")
      { left := some { l1 with charDiff := some cd.1 },
        right := some { r1 with charDiff := some cd.2 } }
    else
      { left := some l1, right := some r1 }
  | _, _ => { left := pr.left, right := pa.right }

/-- Output of one removed-run/added-run merge: min(R, A) merged pairs in
the removed run's positions, then the unmerged tail of the removed run,
then the unmerged tail of the added run (the merged added pairs are the
ones filtered out at source line 191). -/
def mergeOut (enableCharDiff : Bool) (rr ar : List Pair) : List Pair :=
  List.zipWith (mergePair enableCharDiff)
      (rr.take (min rr.length ar.length)) (ar.take (min rr.length ar.length))
    ++ rr.drop (min rr.length ar.length)
    ++ ar.drop (min rr.length ar.length)

mutual

/-- Scanning state of detectModifications' while loop when no run is open:
a pair satisfying the line-142 condition opens a removed run, any other
pair is passed over (`i++`, source line 186). -/
def dmScan (e : Bool) : List Pair → List Pair
  | [] => []
  | p :: rest => if isRemPair p then dmRem e [p] rest else p :: dmScan e rest

/-- Consuming a removed run (source while loop lines 144-147): extend on
any left-only pair; at the first other pair either switch to an added run
(line 151) or leave the removed run untouched and resume scanning there
(the loop's i is already past the run, so the run is emitted as-is). -/
def dmRem (e : Bool) (run : List Pair) : List Pair → List Pair
  | [] => run
  | p :: rest =>
    if leftOnly p then dmRem e (run ++ [p]) rest
    else if isAddPair p then dmAdd e run [p] rest
    else run ++ p :: dmScan e rest

/-- Consuming an added run (source while loop lines 153-156): extend on any
right-only pair; at the first other pair perform the merge of the two runs
and resume scanning, which may immediately open a new removed run. -/
def dmAdd (e : Bool) (rrun arun : List Pair) : List Pair → List Pair
  | [] => mergeOut e rrun arun
  | p :: rest =>
    if rightOnly p then dmAdd e rrun (arun ++ [p]) rest
    else
      mergeOut e rrun arun
        ++ (if isRemPair p then dmRem e [p] rest else p :: dmScan e rest)

end

/-- DiffEngine.detectModifications (source lines 130-192), as a function on
the pair list: the imperative single pass mutates already-scanned pairs in
place and filters the merged ones at the end, which is equivalent to
emitting the processed prefix as it goes. -/
def detectModifications (enableCharDiff : Bool) (pairs : List Pair) :
    List Pair :=
  dmScan enableCharDiff pairs

/-- Running state of processDiff's forEach: the two 1-based line counters
and the accumulated left/right line lists and pair list. -/
structure PState where
  leftLineNum : Nat
  rightLineNum : Nat
  left : List Line
  right : List Line
  pairs : List Pair
deriving Repr

/-- Body of processDiff's inner lines.forEach (source lines 75-117) for one
line of a part with the given added/removed flags. -/
def procLine (isAdded isRemoved : Bool) (st : PState) (line : String) :
    PState :=
  if isAdded then
    let r : Line :=
      { lineNum := st.rightLineNum, content := line, kind := Kind.added,
        charDiff := none }
    { st with rightLineNum := st.rightLineNum + 1,
              right := st.right ++ [r],
              pairs := st.pairs ++ [{ left := none, right := some r }] }
  else if isRemoved then
    let l : Line :=
      { lineNum := st.leftLineNum, content := line, kind := Kind.removed,
        charDiff := none }
    { st with leftLineNum := st.leftLineNum + 1,
              left := st.left ++ [l],
              pairs := st.pairs ++ [{ left := some l, right := none }] }
  else
    let l : Line :=
      { lineNum := st.leftLineNum, content := line, kind := Kind.unchanged,
        charDiff := none }
    let r : Line :=
      { lineNum := st.rightLineNum, content := line, kind := Kind.unchanged,
        charDiff := none }
    { leftLineNum := st.leftLineNum + 1, rightLineNum := st.rightLineNum + 1,
      left := st.left ++ [l], right := st.right ++ [r],
      pairs := st.pairs ++ [{ left := some l, right := some r }] }

/-- Body of processDiff's outer diff.forEach for one part: in the model the
part's value is already its line list (see Seg), so only the per-line loop
remains. -/
def procPart (st : PState) (part : Seg String) : PState :=
  part.value.foldl (procLine part.added part.removed) st

/-- Initial processDiff state: counters at 1, everything empty. -/
def initPState : PState :=
  { leftLineNum := 1, rightLineNum := 1, left := [], right := [], pairs := [] }

/-- DiffEngine.processDiff (source lines 57-124): build lines and pairs
from the diff parts, then run the modification-detection pass over the
pairs. -/
def processDiff (diff : List (Seg String)) (enableCharDiff : Bool) :
    DiffResult :=
  let st := diff.foldl procPart initPState
  { left := st.left, right := st.right,
    pairs := detectModifications enableCharDiff st.pairs }

/-- Diff-pair test of groupDiffBlocks (source line 242): a present side
with a kind other than unchanged. -/
def isDiffPair (p : Pair) : Bool :=
  (match p.left with
   | some l => decide (l.kind ≠ Kind.unchanged)
   | none => false)
  || (match p.right with
      | some r => decide (r.kind ≠ Kind.unchanged)
      | none => false)

/-- One forEach step of groupDiffBlocks: a diff pair opens or extends the
current block; any other pair closes it. -/
def gdbStep (st : List Block × Option Block) (ip : Nat × Pair) :
    List Block × Option Block :=
  if isDiffPair ip.2 then
    match st.2 with
    | none => (st.1, some { startIndex := ip.1, endIndex := ip.1, pairs := [ip.2] })
    | some b =>
      (st.1, some { startIndex := b.startIndex, endIndex := ip.1,
                    pairs := b.pairs ++ [ip.2] })
  else
    match st.2 with
    | some b => (st.1 ++ [b], none)
    | none => st

/-- DiffEngine.groupDiffBlocks (source lines 237-268): fold the indexed
pair list, flushing the still-open block at the end. -/
def groupDiffBlocks (diffResult : DiffResult) : List Block :=
  let st := diffResult.pairs.enum.foldl gdbStep ([], none)
  match st.2 with
  | some b => st.1 ++ [b]
  | none => st.1

/-- DiffEngine.compare (source lines 21-38): split both sides, align,
process with char-diff enabled only below the instance threshold, and
cache result and blocks on the engine. -/
def compare (eng : DiffEngine) (leftText rightText : String) : DiffEngine :=
  let ll := splitLines leftText
  let rl := splitLines rightText
  let totalLines := ll.length + rl.length
  let diff := diffLines leftText rightText
  let result := processDiff diff (decide (totalLines < eng.maxLinesForCharDiff))
  { eng with leftLines := ll, rightLines := rl, diffResult := result,
             diffBlocks := groupDiffBlocks result }

/-- DiffEngine.getDiffBlocks. -/
def getDiffBlocks (eng : DiffEngine) : List Block := eng.diffBlocks

/-- DiffEngine.getResult. -/
def getResult (eng : DiffEngine) : DiffResult := eng.diffResult

/-- One pair's contribution in getStats' forEach (source lines 280-292). -/
def statStep (c : Stats) (pair : Pair) : Stats :=
  match pair.left, pair.right with
  | some l, some _ =>
    if l.kind = Kind.modified then { c with modified := c.modified + 1 }
    else { c with unchanged := c.unchanged + 1 }
  | some _, none => { c with removed := c.removed + 1 }
  | none, some _ => { c with added := c.added + 1 }
  | none, none => c

/-- DiffEngine.getStats (source lines 274-303). -/
def getStats (eng : DiffEngine) : Stats :=
  eng.diffResult.pairs.foldl statStep
    { added := 0, removed := 0, modified := 0, unchanged := 0,
      totalDiffs := eng.diffBlocks.length,
      leftLines := eng.leftLines.length,
      rightLines := eng.rightLines.length }

/-- Net index advance of one iteration of detectModifications' while loop
(source lines 134-188) when entered at index i of the pair list: a pair
satisfying the removed-run start condition advances past the whole
left-only run (plus the following right-only run when one is merged); any
other pair advances by one. -/
def loopStep (pairs : List Pair) (i : Nat) : Nat :=
  match pairs.drop i with
  | [] => i + 1
  | p :: _ =>
    if isRemPair p then
      let s := pairs.drop i
      let k := (s.takeWhile leftOnly).length
      if (s.dropWhile leftOnly).head?.any isAddPair then
        i + k + ((s.dropWhile leftOnly).takeWhile rightOnly).length
      else i + k
    else i + 1

/-- Left-side projection of a pair: the content of its left line, if present. -/
def projL (p : Pair) : Option String := p.left.map Line.content

/-- Right-side projection of a pair: the content of its right line, if present. -/
def projR (p : Pair) : Option String := p.right.map Line.content

/-- The claim's "modified" statistic predicate: the pair's left kind is
modified. -/
def claimModP (p : Pair) : Bool :=
  match p.left with
  | some l => decide (l.kind = Kind.modified)
  | none => false

/-- The claim's "unchanged" statistic predicate: both sides present with
kind unchanged. -/
def claimUnchP (p : Pair) : Bool :=
  match p.left, p.right with
  | some l, some r =>
    decide (l.kind = Kind.unchanged) && decide (r.kind = Kind.unchanged)
  | _, _ => false

/-- Separation of two blocks: the first ends strictly before the pair
preceding the second's start, so blocks neither overlap nor touch. -/
def sepBlocks (a b : Block) : Prop := a.endIndex + 1 < b.startIndex

/-- Well-formedness of one block against the final pair sequence: its index
range is a run inside the sequence, its pairs field is exactly that
contiguous window, every pair in it is a diff pair, and the run is maximal
(the neighbouring pairs, when they exist, are not diff pairs). -/
def BlockWF (ps : List Pair) (b : Block) : Prop :=
  b.startIndex ≤ b.endIndex ∧ b.endIndex < ps.length ∧
  b.pairs = (ps.drop b.startIndex).take (b.endIndex + 1 - b.startIndex) ∧
  (∀ p ∈ b.pairs, isDiffPair p = true) ∧
  (b.startIndex = 0 ∨
    ∃ p, ps[b.startIndex - 1]? = some p ∧ isDiffPair p = false) ∧
  (b.endIndex + 1 = ps.length ∨
    ∃ p, ps[b.endIndex + 1]? = some p ∧ isDiffPair p = false)

/-- Well-formedness of a still-open block during groupDiffBlocks' scan:
everything of BlockWF except the right-maximality, which is only known
once the block is closed. -/
def BlockOpen (ps : List Pair) (b : Block) : Prop :=
  b.startIndex ≤ b.endIndex ∧ b.endIndex < ps.length ∧
  b.pairs = (ps.drop b.startIndex).take (b.endIndex + 1 - b.startIndex) ∧
  (∀ p ∈ b.pairs, isDiffPair p = true) ∧
  (b.startIndex = 0 ∨
    ∃ p, ps[b.startIndex - 1]? = some p ∧ isDiffPair p = false)

/-- Invariant of groupDiffBlocks' fold after the first k pairs: closed
blocks are well formed, pairwise separated and end before the frontier;
when no block is open the frontier pair (if any) was not a diff pair; an
open block reaches exactly the frontier and lies after every closed
block. -/
def gdbInv (ps : List Pair) (k : Nat) (st : List Block × Option Block) :
    Prop :=
  (∀ b ∈ st.1, BlockWF ps b ∧ b.endIndex + 2 ≤ k) ∧
  List.Pairwise sepBlocks st.1 ∧
  (match st.2 with
   | none => k = 0 ∨ ∃ p, ps[k - 1]? = some p ∧ isDiffPair p = false
   | some b =>
     BlockOpen ps b ∧ b.endIndex + 1 = k ∧
       ∀ b' ∈ st.1, b'.endIndex + 1 < b.startIndex)

/-- Shape of every pair leaving processDiff's pairing loop, before the
modification pass: a removed line alone on the left, an added line alone on
the right, or an unchanged line on both sides with equal content; charDiff
is never set at this stage. -/
def PreS (p : Pair) : Prop :=
  (∃ l, p.left = some l ∧ p.right = none ∧ l.kind = Kind.removed ∧
    l.charDiff = none) ∨
  (∃ r, p.left = none ∧ p.right = some r ∧ r.kind = Kind.added ∧
    r.charDiff = none) ∨
  (∃ l r, p.left = some l ∧ p.right = some r ∧ l.kind = Kind.unchanged ∧
    r.kind = Kind.unchanged ∧ l.content = r.content ∧
    l.charDiff = none ∧ r.charDiff = none)

/-- Shape of every pair leaving the modification pass: either untouched (a
PreS pair) or an atomically merged pair, both sides modified, carrying a
character diff exactly when the pass ran with char-diffing enabled. -/
def PostS (e : Bool) (p : Pair) : Prop :=
  PreS p ∨
  (∃ l r, p.left = some l ∧ p.right = some r ∧ l.kind = Kind.modified ∧
    r.kind = Kind.modified ∧ l.charDiff.isSome = e ∧ r.charDiff.isSome = e)

/-- Both sides present, unchanged, with identical content (the shape of
every pair of a self-comparison). -/
def BothUnchanged (p : Pair) : Prop :=
  ∃ l r, p.left = some l ∧ p.right = some r ∧ l.kind = Kind.unchanged ∧
    r.kind = Kind.unchanged ∧ l.content = r.content

/-- A both-sides-unchanged pair with the given line numbers and content,
used for concrete inputs in witnesses. -/
def wuPair (n m : Nat) (s : String) : Pair :=
  { left := some { lineNum := n, content := s, kind := Kind.unchanged, charDiff := none },
    right := some { lineNum := m, content := s, kind := Kind.unchanged, charDiff := none } }

/-- A left-only removed pair, used for concrete inputs in witnesses. -/
def wrPair (n : Nat) (s : String) : Pair :=
  { left := some { lineNum := n, content := s, kind := Kind.removed, charDiff := none },
    right := none }

/-- A right-only added pair, used for concrete inputs in witnesses. -/
def waPair (m : Nat) (s : String) : Pair :=
  { left := none,
    right := some { lineNum := m, content := s, kind := Kind.added, charDiff := none } }

/-- The single merged pair produced by compare DiffEngine.new "a" "b". -/
def wmPair : Pair :=
  { left := some { lineNum := 1, content := "a", kind := Kind.modified, charDiff := some [{ text := "a", kind := Kind.removed }] },
    right := some { lineNum := 1, content := "b", kind := Kind.modified, charDiff := some [{ text := "b", kind := Kind.added }] } }


/-- A takeWhile over an append stops within the first list when the second
list's head (if any) fails the predicate. -/
theorem takeWhile_append_stop {α : Type} (p : α → Bool) (l1 l2 : List α)
    (h : ∀ q, l2.head? = some q → p q = false) :
    (l1 ++ l2).takeWhile p = l1.takeWhile p := by
  induction l1 with
  | nil =>
    cases l2 with
    | nil => rfl
    | cons a t => simp [List.takeWhile_cons, h a rfl]
  | cons a l1 ih =>
    simp only [List.cons_append, List.takeWhile_cons]
    cases hpa : p a <;> simp [ih]

/-- Companion of takeWhile_append_stop for dropWhile. -/
theorem dropWhile_append_stop {α : Type} (p : α → Bool) (l1 l2 : List α)
    (h : ∀ q, l2.head? = some q → p q = false) :
    (l1 ++ l2).dropWhile p = l1.dropWhile p ++ l2 := by
  induction l1 with
  | nil =>
    cases l2 with
    | nil => rfl
    | cons a t => simp [List.dropWhile_cons, h a rfl]
  | cons a l1 ih =>
    simp only [List.cons_append, List.dropWhile_cons]
    cases hpa : p a <;> simp [ih]

/-- A takeWhile over an append stops within the first list when some
element of the first list fails the predicate. -/
theorem takeWhile_append_not_all {α : Type} (p : α → Bool) (l1 l2 : List α)
    (h : ∃ x ∈ l1, p x = false) :
    (l1 ++ l2).takeWhile p = l1.takeWhile p ∧
      (l1 ++ l2).dropWhile p = l1.dropWhile p ++ l2 ∧
      l1.dropWhile p ≠ [] := by
  induction l1 with
  | nil => simp at h
  | cons a l1 ih =>
    cases hpa : p a with
    | false => simp [List.takeWhile_cons, List.dropWhile_cons, hpa]
    | true =>
      obtain ⟨x, hx, hpx⟩ := h
      have hxl1 : x ∈ l1 := by
        rcases List.mem_cons.mp hx with rfl | hm
        · rw [hpa] at hpx; cases hpx
        · exact hm
      obtain ⟨h1, h2, h3⟩ := ih ⟨x, hxl1, hpx⟩
      simp [List.takeWhile_cons, List.dropWhile_cons, hpa, h1, h2, h3]

/-- Every element of a zipWith image comes from elements of the two lists. -/
theorem mem_zipWith {α β γ : Type} {f : α → β → γ} :
    ∀ {as : List α} {bs : List β} {x : γ}, x ∈ List.zipWith f as bs →
      ∃ a b, a ∈ as ∧ b ∈ bs ∧ x = f a b := by
  intro as
  induction as with
  | nil => intro bs x h; simp at h
  | cons a as ih =>
    intro bs x h
    cases bs with
    | nil => simp at h
    | cons b bs =>
      rcases List.mem_cons.mp h with rfl | hm
      · exact ⟨a, b, List.mem_cons_self _ _, List.mem_cons_self _ _, rfl⟩
      · obtain ⟨a', b', ha, hb, hx⟩ := ih hm
        exact ⟨a', b', List.mem_cons_of_mem _ ha, List.mem_cons_of_mem _ hb, hx⟩

/-- The splitter's catch-all step: a character that is not LF and does not
start a CRLF is accumulated as ordinary line content. -/
theorem splitLinesAux_other (c : Char) (rest : List Char) (acc : List Char)
    (h1 : c ≠ '\n') (h2 : ¬(c = '\r' ∧ rest.head? = some '\n')) :
    splitLinesAux (c :: rest) acc = splitLinesAux rest (c :: acc) := by
  rw [splitLinesAux.eq_def]
  split
  · simp_all
  · rename_i heq
    injection heq with hc hrest
    exact absurd ⟨hc, by rw [hrest]; rfl⟩ h2
  · rename_i heq
    injection heq with hc _
    exact absurd hc h1
  · rename_i heq
    injection heq with hc hrest
    subst hc; subst hrest; rfl

/-- Splitting a character list that contains no LF yields a single line. -/
theorem splitLinesAux_no_lf (cs : List Char) (h : '\n' ∉ cs) :
    ∀ acc, splitLinesAux cs acc = [String.mk (acc.reverse ++ cs)] := by
  induction cs with
  | nil => intro acc; simp [splitLinesAux]
  | cons c cs ih =>
    intro acc
    have hc : c ≠ '\n' := fun hc => h (hc ▸ List.mem_cons_self _ _)
    have hcs : '\n' ∉ cs := fun hm => h (List.mem_cons_of_mem _ hm)
    have h2 : ¬(c = '\r' ∧ cs.head? = some '\n') := by
      rintro ⟨-, hh⟩
      exact hcs (List.mem_of_mem_head? hh)
    rw [splitLinesAux_other c cs acc hc h2, ih hcs]
    simp

/-- Splitting cs ++ LF ++ tail closes the line cs (no LF inside cs, and cs
does not end in CR, so the LF is a lone-LF boundary). -/
theorem splitLinesAux_salient_lf (cs : List Char) (tail : List Char)
    (h1 : '\n' ∉ cs) (h2 : cs.getLast? ≠ some '\r') :
    ∀ acc, splitLinesAux (cs ++ '\n' :: tail) acc =
      String.mk (acc.reverse ++ cs) :: splitLinesAux tail [] := by
  induction cs with
  | nil => intro acc; simp [splitLinesAux]
  | cons c cs ih =>
    intro acc
    have hc : c ≠ '\n' := fun hc => h1 (hc ▸ List.mem_cons_self _ _)
    have hcs : '\n' ∉ cs := fun hm => h1 (List.mem_cons_of_mem _ hm)
    have hstep : ¬(c = '\r' ∧ (cs ++ '\n' :: tail).head? = some '\n') := by
      rintro ⟨rfl, hh⟩
      cases cs with
      | nil => exact h2 rfl
      | cons d cs' =>
        simp only [List.cons_append, List.head?_cons, Option.some.injEq] at hh
        exact hcs (hh ▸ List.mem_cons_self _ _)
    have h2' : cs.getLast? ≠ some '\r' := by
      cases cs with
      | nil => simp
      | cons d cs' =>
        intro hl
        exact h2 (by rwa [List.getLast?_cons_cons])
    rw [List.cons_append, splitLinesAux_other c _ acc hc hstep, ih hcs h2']
    simp

/-- Splitting cs ++ CRLF ++ tail closes the line cs (no LF inside cs). -/
theorem splitLinesAux_salient_crlf (cs : List Char) (tail : List Char)
    (h1 : '\n' ∉ cs) :
    ∀ acc, splitLinesAux (cs ++ '\r' :: '\n' :: tail) acc =
      String.mk (acc.reverse ++ cs) :: splitLinesAux tail [] := by
  induction cs with
  | nil => intro acc; simp [splitLinesAux]
  | cons c cs ih =>
    intro acc
    have hc : c ≠ '\n' := fun hc => h1 (hc ▸ List.mem_cons_self _ _)
    have hcs : '\n' ∉ cs := fun hm => h1 (List.mem_cons_of_mem _ hm)
    have hstep : ¬(c = '\r' ∧ (cs ++ '\r' :: '\n' :: tail).head? = some '\n') := by
      rintro ⟨rfl, hh⟩
      cases cs with
      | nil => simp at hh
      | cons d cs' =>
        simp only [List.cons_append, List.head?_cons, Option.some.injEq] at hh
        exact hcs (hh ▸ List.mem_cons_self _ _)
    rw [List.cons_append, splitLinesAux_other c _ acc hc hstep, ih hcs]
    simp

/-- Splitting the LF-join of a line list, followed by an LF boundary and a
tail, yields the lines followed by the split of the tail. -/
theorem splitLinesAux_unsplit_lf (L : List String) (hne : L ≠ [])
    (h : ∀ s ∈ L, '\n' ∉ s.data ∧ s.data.getLast? ≠ some '\r') :
    ∀ tail, splitLinesAux ((unsplit L).data ++ '\n' :: tail) [] =
      L ++ splitLinesAux tail [] := by
  induction L with
  | nil => cases hne rfl
  | cons s rest ih =>
    intro tail
    obtain ⟨hs1, hs2⟩ := h s (List.mem_cons_self _ _)
    cases rest with
    | nil =>
      rw [show unsplit [s] = s from rfl,
        splitLinesAux_salient_lf s.data tail hs1 hs2]
      simp
    | cons t rest' =>
      have hdata : (unsplit (s :: t :: rest')).data =
          s.data ++ '\n' :: (unsplit (t :: rest')).data := by
        rw [show unsplit (s :: t :: rest') = s ++ "\n" ++ unsplit (t :: rest')
          from rfl]
        simp [String.data_append]
      rw [hdata]
      simp only [List.append_assoc, List.cons_append]
      rw [splitLinesAux_salient_lf s.data _ hs1 hs2]
      rw [ih (List.cons_ne_nil _ _)
        (fun u hu => h u (List.mem_cons_of_mem _ hu)) tail]
      simp

/-- Splitting the LF-join of a line list (no trailing terminator) yields
exactly the lines. -/
theorem splitLinesAux_unsplit (L : List String) (hne : L ≠ [])
    (h : ∀ s ∈ L, '\n' ∉ s.data ∧ s.data.getLast? ≠ some '\r') :
    splitLinesAux (unsplit L).data [] = L := by
  induction L with
  | nil => cases hne rfl
  | cons s rest ih =>
    obtain ⟨hs1, hs2⟩ := h s (List.mem_cons_self _ _)
    cases rest with
    | nil => rw [show unsplit [s] = s from rfl, splitLinesAux_no_lf s.data hs1]; simp
    | cons t rest' =>
      have hdata : (unsplit (s :: t :: rest')).data =
          s.data ++ '\n' :: (unsplit (t :: rest')).data := by
        rw [show unsplit (s :: t :: rest') = s ++ "\n" ++ unsplit (t :: rest')
          from rfl]
        simp [String.data_append]
      rw [hdata, splitLinesAux_salient_lf s.data _ hs1 hs2]
      rw [ih (List.cons_ne_nil _ _) (fun u hu => h u (List.mem_cons_of_mem _ hu))]
      simp

/-- CRLF version of splitLinesAux_unsplit_lf. -/
theorem splitLinesAux_unsplitCRLF_crlf (L : List String) (hne : L ≠ [])
    (h : ∀ s ∈ L, '\n' ∉ s.data ∧ s.data.getLast? ≠ some '\r') :
    ∀ tail, splitLinesAux ((unsplitCRLF L).data ++ '\r' :: '\n' :: tail) [] =
      L ++ splitLinesAux tail [] := by
  induction L with
  | nil => cases hne rfl
  | cons s rest ih =>
    intro tail
    obtain ⟨hs1, _⟩ := h s (List.mem_cons_self _ _)
    cases rest with
    | nil =>
      rw [show unsplitCRLF [s] = s from rfl,
        splitLinesAux_salient_crlf s.data tail hs1]
      simp
    | cons t rest' =>
      have hdata : (unsplitCRLF (s :: t :: rest')).data =
          s.data ++ '\r' :: '\n' :: (unsplitCRLF (t :: rest')).data := by
        rw [show unsplitCRLF (s :: t :: rest') =
          s ++ "\r\n" ++ unsplitCRLF (t :: rest') from rfl]
        simp [String.data_append]
      rw [hdata]
      simp only [List.append_assoc, List.cons_append]
      rw [splitLinesAux_salient_crlf s.data _ hs1]
      rw [ih (List.cons_ne_nil _ _)
        (fun u hu => h u (List.mem_cons_of_mem _ hu)) tail]
      simp

/-- CRLF version of splitLinesAux_unsplit. -/
theorem splitLinesAux_unsplitCRLF (L : List String) (hne : L ≠ [])
    (h : ∀ s ∈ L, '\n' ∉ s.data ∧ s.data.getLast? ≠ some '\r') :
    splitLinesAux (unsplitCRLF L).data [] = L := by
  induction L with
  | nil => cases hne rfl
  | cons s rest ih =>
    obtain ⟨hs1, _⟩ := h s (List.mem_cons_self _ _)
    cases rest with
    | nil =>
      rw [show unsplitCRLF [s] = s from rfl, splitLinesAux_no_lf s.data hs1]
      simp
    | cons t rest' =>
      have hdata : (unsplitCRLF (s :: t :: rest')).data =
          s.data ++ '\r' :: '\n' :: (unsplitCRLF (t :: rest')).data := by
        rw [show unsplitCRLF (s :: t :: rest') =
          s ++ "\r\n" ++ unsplitCRLF (t :: rest') from rfl]
        simp [String.data_append]
      rw [hdata, splitLinesAux_salient_crlf s.data _ hs1]
      rw [ih (List.cons_ne_nil _ _) (fun u hu => h u (List.mem_cons_of_mem _ hu))]
      simp

/-- The LF-join of a nonempty line list other than a single empty line is a
nonempty string. -/
theorem unsplit_ne_empty (L : List String) (hne : L ≠ []) (h0 : L ≠ [""]) :
    unsplit L ≠ "" := by
  cases L with
  | nil => cases hne rfl
  | cons s rest =>
    cases rest with
    | nil =>
      intro hc
      exact h0 (by rw [show unsplit [s] = s from rfl] at hc; rw [hc])
    | cons t rest' =>
      intro hc
      have := congrArg String.data hc
      rw [show unsplit (s :: t :: rest') = s ++ "\n" ++ unsplit (t :: rest')
        from rfl] at this
      simp [String.data_append] at this

/-- CRLF version of unsplit_ne_empty. -/
theorem unsplitCRLF_ne_empty (L : List String) (hne : L ≠ [])
    (h0 : L ≠ [""]) : unsplitCRLF L ≠ "" := by
  cases L with
  | nil => cases hne rfl
  | cons s rest =>
    cases rest with
    | nil =>
      intro hc
      exact h0 (by rw [show unsplitCRLF [s] = s from rfl] at hc; rw [hc])
    | cons t rest' =>
      intro hc
      have := congrArg String.data hc
      rw [show unsplitCRLF (s :: t :: rest') =
        s ++ "\r\n" ++ unsplitCRLF (t :: rest') from rfl] at this
      simp [String.data_append] at this

/-- Appending a newline to any string yields a nonempty string. -/
theorem append_nl_ne_empty (s : String) (t : String) (ht : t.data ≠ []) :
    s ++ t ≠ "" := by
  intro hc
  have := congrArg String.data hc
  rw [String.data_append] at this
  simp only [show ("" : String).data = [] from rfl] at this
  exact ht (List.append_eq_nil.mp this).2

/-- C1 counterexample: the source splitLines does not exclude the phantom
empty trailing element: "a\nb\n" splits to ["a", "b", ""], not to the
claimed ["a", "b"]. -/
theorem splitLines_trailing_counterexample :
    splitLines "a\nb\n" = ["a", "b", ""] ∧
      splitLines "a\nb\n" ≠ ["a", "b"] := by
  decide

/-- C1 (amended): splitLines splits on CRLF or LF boundaries only (a lone
CR is ordinary content), preserves empty interior lines, and maps the empty
string to []; but, contrary to the claim, a text ending in a line
terminator produces a trailing empty element: joining any line list (none
of whose lines contain LF or end in CR; nonempty and not the single empty
line, which the empty-string guard swallows) with LF or with CRLF splits
back to exactly those lines, and appending one more terminator appends
exactly one empty line to the result. -/
theorem splitLines_roundtrip_amended (L : List String) (h1 : L ≠ [])
    (h0 : L ≠ [""])
    (h2 : ∀ s ∈ L, '\n' ∉ s.data ∧ s.data.getLast? ≠ some '\r') :
    splitLines (unsplit L) = L ∧
    splitLines (unsplit L ++ "\n") = L ++ [""] ∧
    splitLines (unsplitCRLF L) = L ∧
    splitLines (unsplitCRLF L ++ "\r\n") = L ++ [""] ∧
    splitLines "" = [] := by
  refine ⟨?_, ?_, ?_, ?_, rfl⟩
  · rw [splitLines, if_neg (unsplit_ne_empty L h1 h0)]
    exact splitLinesAux_unsplit L h1 h2
  · rw [splitLines, if_neg (append_nl_ne_empty _ "\n" (by decide))]
    rw [String.data_append, show ("\n" : String).data = ['\n'] from rfl]
    rw [splitLinesAux_unsplit_lf L h1 h2 []]
    rfl
  · rw [splitLines, if_neg (unsplitCRLF_ne_empty L h1 h0)]
    exact splitLinesAux_unsplitCRLF L h1 h2
  · rw [splitLines, if_neg (append_nl_ne_empty _ "\r\n" (by decide))]
    rw [String.data_append, show ("\r\n" : String).data = ['\r', '\n'] from rfl]
    rw [splitLinesAux_unsplitCRLF_crlf L h1 h2 []]
    rfl

/-- Witness for the amended C1 theorem at the concrete line list
["a", "b"]. -/
theorem splitLines_roundtrip_amended_witness :
    ((["a", "b"] : List String) ≠ [] ∧ (["a", "b"] : List String) ≠ [""] ∧
      (∀ s ∈ (["a", "b"] : List String),
        '\n' ∉ s.data ∧ s.data.getLast? ≠ some '\r')) ∧
    (splitLines (unsplit ["a", "b"]) = ["a", "b"] ∧
      splitLines (unsplit ["a", "b"] ++ "\n") = ["a", "b"] ++ [""] ∧
      splitLines (unsplitCRLF ["a", "b"]) = ["a", "b"] ∧
      splitLines (unsplitCRLF ["a", "b"] ++ "\r\n") = ["a", "b"] ++ [""] ∧
      splitLines "" = []) :=
  ⟨⟨by decide, by decide, by decide⟩,
    splitLines_roundtrip_amended ["a", "b"] (by decide) (by decide) (by decide)⟩

/-- Unfolding of lcs on two nonempty lists. -/
theorem lcs_cons_cons {α : Type} [DecidableEq α] (a b : α) (as bs : List α) :
    lcs (a :: as) (b :: bs) =
      if a = b then a :: lcs as bs
      else if (lcs (a :: as) bs).length ≤ (lcs as (b :: bs)).length
        then lcs as (b :: bs) else lcs (a :: as) bs := rfl

/-- The computed common subsequence is a sublist of the first sequence. -/
theorem lcs_sublist_left {α : Type} [DecidableEq α] :
    ∀ (xs ys : List α), List.Sublist (lcs xs ys) xs := by
  intro xs
  induction xs with
  | nil => intro ys; simp [lcs]
  | cons a as ih =>
    intro ys
    induction ys with
    | nil => exact List.nil_sublist _
    | cons b bs ih2 =>
      rw [lcs_cons_cons]
      by_cases hab : a = b
      · simp only [if_pos hab]
        exact List.Sublist.cons₂ a (ih bs)
      · simp only [if_neg hab]
        by_cases hlen : (lcs (a :: as) bs).length ≤ (lcs as (b :: bs)).length
        · simp only [if_pos hlen]
          exact List.Sublist.cons a (ih (b :: bs))
        · simp only [if_neg hlen]
          exact ih2
  
/-- The computed common subsequence is a sublist of the second sequence. -/
theorem lcs_sublist_right {α : Type} [DecidableEq α] :
    ∀ (xs ys : List α), List.Sublist (lcs xs ys) ys := by
  intro xs
  induction xs with
  | nil => intro ys; exact List.nil_sublist _
  | cons a as ih =>
    intro ys
    induction ys with
    | nil => exact List.Sublist.refl _
    | cons b bs ih2 =>
      rw [lcs_cons_cons]
      by_cases hab : a = b
      · simp only [if_pos hab]
        subst hab
        exact List.Sublist.cons₂ a (ih bs)
      · simp only [if_neg hab]
        by_cases hlen : (lcs (a :: as) bs).length ≤ (lcs as (b :: bs)).length
        · simp only [if_pos hlen]
          exact ih (b :: bs)
        · simp only [if_neg hlen]
          exact List.Sublist.cons b ih2

/-- The LCS of a sequence with itself is the sequence. -/
theorem lcs_self {α : Type} [DecidableEq α] (xs : List α) : lcs xs xs = xs := by
  induction xs with
  | nil => rfl
  | cons a as ih => rw [lcs_cons_cons]; simp [ih]

/-- Dropping up to the first occurrence of a present element exposes it as
the head. -/
theorem dropWhile_ne_of_mem {α : Type} [DecidableEq α] (c : α) (xs : List α)
    (h : c ∈ xs) :
    xs.dropWhile (fun a => !(decide (a = c))) =
      c :: (xs.dropWhile (fun a => !(decide (a = c)))).tail := by
  induction xs with
  | nil => cases h
  | cons x xs ih =>
    by_cases hx : x = c
    · subst hx
      simp [List.dropWhile_cons]
    · have hmem : c ∈ xs := by
        rcases List.mem_cons.mp h with rfl | hm
        · cases hx rfl
        · exact hm
      simp only [List.dropWhile_cons, hx, decide_eq_true_eq]
      exact ih hmem

/-- A sublist starting with c continues as a sublist of what follows the
first occurrence of c. -/
theorem sublist_tail_dropWhile {α : Type} [DecidableEq α] (c : α)
    (cs : List α) : ∀ (xs : List α), List.Sublist (c :: cs) xs →
      List.Sublist cs ((xs.dropWhile (fun a => !(decide (a = c)))).tail) := by
  intro xs
  induction xs with
  | nil => intro h; cases h
  | cons x xs ih =>
    intro h
    by_cases hx : x = c
    · subst hx
      have hcs : List.Sublist cs xs := by
        cases h with
        | cons _ h2 => exact (List.sublist_cons_self _ cs).trans h2
        | cons₂ _ h2 => exact h2
      simpa [List.dropWhile_cons] using hcs
    · have h2 : List.Sublist (c :: cs) xs := by
        cases h with
        | cons _ h2 => exact h2
        | cons₂ _ h2 => exact absurd rfl hx
      simp only [List.dropWhile_cons, hx, decide_eq_true_eq]
      exact ih h2

/-- A removed-only segment (present unless its value is empty) contributes
its value to the left projection. -/
theorem removedSeg_left {α : Type} (px : List α) :
    (List.map (fun pt => if pt.added = true then ([] : List α) else pt.value)
      (if px.isEmpty then ([] : List (Seg α)) else [⟨false, true, px⟩])).flatten
      = px := by
  cases px <;> simp

/-- An added-only segment contributes nothing to the left projection. -/
theorem addedSeg_left {α : Type} (py : List α) :
    (List.map (fun pt => if pt.added = true then ([] : List α) else pt.value)
      (if py.isEmpty then ([] : List (Seg α)) else [⟨true, false, py⟩])).flatten
      = [] := by
  cases py <;> simp

/-- An added-only segment contributes its value to the right projection. -/
theorem addedSeg_right {α : Type} (py : List α) :
    (List.map (fun pt => if pt.removed = true then ([] : List α) else pt.value)
      (if py.isEmpty then ([] : List (Seg α)) else [⟨true, false, py⟩])).flatten
      = py := by
  cases py <;> simp

/-- A removed-only segment contributes nothing to the right projection. -/
theorem removedSeg_right {α : Type} (px : List α) :
    (List.map (fun pt => if pt.removed = true then ([] : List α) else pt.value)
      (if px.isEmpty then ([] : List (Seg α)) else [⟨false, true, px⟩])).flatten
      = [] := by
  cases px <;> simp

/-- Concatenating the values of the non-added segments of the modelled
alignment reconstructs the first sequence, for any common subsequence of
it. -/
theorem alignWith_left_reconstruct {α : Type} [DecidableEq α] :
    ∀ (common xs ys : List α), List.Sublist common xs →
      ((alignWith xs ys common).map
        (fun pt => if pt.added = true then [] else pt.value)).flatten = xs := by
  intro common
  induction common with
  | nil =>
    intro xs ys _
    simp only [alignWith, List.map_append, List.flatten_append,
      removedSeg_left, addedSeg_left, List.append_nil]
  | cons c cs ih =>
    intro xs ys h
    have hcx : c ∈ xs := h.subset (List.mem_cons_self _ _)
    have htail := sublist_tail_dropWhile c cs xs h
    simp only [alignWith, List.map_append, List.flatten_append,
      removedSeg_left, addedSeg_left, List.nil_append, List.map_cons,
      List.flatten_cons]
    rw [ih _ _ htail]
    conv_rhs => rw [← List.takeWhile_append_dropWhile
      (fun a => !(decide (a = c))) xs, dropWhile_ne_of_mem c xs hcx]
    simp

/-- Concatenating the values of the non-removed segments of the modelled
alignment reconstructs the second sequence, for any common subsequence of
it. -/
theorem alignWith_right_reconstruct {α : Type} [DecidableEq α] :
    ∀ (common xs ys : List α), List.Sublist common ys →
      ((alignWith xs ys common).map
        (fun pt => if pt.removed = true then [] else pt.value)).flatten = ys := by
  intro common
  induction common with
  | nil =>
    intro xs ys _
    simp only [alignWith, List.map_append, List.flatten_append,
      removedSeg_right, addedSeg_right, List.nil_append]
  | cons c cs ih =>
    intro xs ys h
    have hcy : c ∈ ys := h.subset (List.mem_cons_self _ _)
    have htail := sublist_tail_dropWhile c cs ys h
    simp only [alignWith, List.map_append, List.flatten_append,
      removedSeg_right, addedSeg_right, List.nil_append, List.map_cons,
      List.flatten_cons]
    rw [ih _ _ htail]
    conv_rhs => rw [← List.takeWhile_append_dropWhile
      (fun a => !(decide (a = c))) ys, dropWhile_ne_of_mem c ys hcy]
    simp

/-- Aligning a sequence with itself along itself yields only singleton
common segments. -/
theorem alignWith_self {α : Type} [DecidableEq α] :
    ∀ xs : List α, alignWith xs xs xs = xs.map (fun c => ⟨false, false, [c]⟩) := by
  intro xs
  induction xs with
  | nil => simp [alignWith]
  | cons c cs ih =>
    simp [alignWith, List.takeWhile_cons, List.dropWhile_cons, ih]

/-- Contribution of one processed line to the two content projections of
the pair list: an added line only to the right, a removed line only to the
left, an unchanged line to both. -/
theorem procLine_pairs_proj (a r : Bool) (line : String) (st : PState) :
    ((procLine a r st line).pairs).filterMap projL =
      st.pairs.filterMap projL ++ (if a = true then [] else [line]) ∧
    ((procLine a r st line).pairs).filterMap projR =
      st.pairs.filterMap projR ++
        (if a = false && r = true then [] else [line]) := by
  by_cases ha : a = true
  · simp [procLine, ha, projL, projR]
  · by_cases hr : r = true <;> simp [procLine, ha, hr, projL, projR]

/-- Contribution of one part's line loop to the two content projections. -/
theorem foldl_procLine_proj (a r : Bool) (lines : List String) :
    ∀ st : PState,
      ((lines.foldl (procLine a r) st).pairs).filterMap projL =
        st.pairs.filterMap projL ++ (if a = true then [] else lines) ∧
      ((lines.foldl (procLine a r) st).pairs).filterMap projR =
        st.pairs.filterMap projR ++
          (if a = false && r = true then [] else lines) := by
  induction lines with
  | nil => intro st; simp
  | cons line lines ih =>
    intro st
    simp only [List.foldl_cons]
    obtain ⟨ih1, ih2⟩ := ih (procLine a r st line)
    obtain ⟨h1, h2⟩ := procLine_pairs_proj a r line st
    rw [ih1, ih2, h1, h2]
    constructor <;> by_cases ha : a = true <;> by_cases hr : r = true <;>
      simp [ha, hr]

/-- Contribution of the whole part loop to the two content projections: the
left projection collects the non-added part values in order, the right
projection the non-removed ones (an added flag wins over a removed flag,
mirroring the source's branch order). -/
theorem foldl_procPart_proj (parts : List (Seg String)) :
    ∀ st : PState,
      ((parts.foldl procPart st).pairs).filterMap projL =
        st.pairs.filterMap projL ++
          (parts.map (fun pt => if pt.added = true then [] else pt.value)).flatten ∧
      ((parts.foldl procPart st).pairs).filterMap projR =
        st.pairs.filterMap projR ++
          (parts.map (fun pt =>
            if pt.added = false && pt.removed = true then [] else pt.value)).flatten := by
  induction parts with
  | nil => intro st; simp
  | cons pt parts ih =>
    intro st
    simp only [List.foldl_cons, procPart]
    obtain ⟨ih1, ih2⟩ := ih (pt.value.foldl (procLine pt.added pt.removed) st)
    obtain ⟨h1, h2⟩ := foldl_procLine_proj pt.added pt.removed pt.value st
    rw [ih1, ih2, h1, h2]
    simp [List.append_assoc]

/-- No segment of the modelled alignment carries both flags. -/
theorem alignWith_flags {α : Type} [DecidableEq α] :
    ∀ (common xs ys : List α), ∀ pt ∈ alignWith xs ys common,
      pt.added = false ∨ pt.removed = false := by
  intro common
  induction common with
  | nil =>
    intro xs ys pt hpt
    simp only [alignWith] at hpt
    rcases List.mem_append.mp hpt with hm | hm
    · rcases List.mem_ite_nil_left.mp hm with ⟨-, hm2⟩
      rcases List.mem_singleton.mp hm2 with rfl
      simp
    · rcases List.mem_ite_nil_left.mp hm with ⟨-, hm2⟩
      rcases List.mem_singleton.mp hm2 with rfl
      simp
  | cons c cs ih =>
    intro xs ys pt hpt
    simp only [alignWith] at hpt
    rcases List.mem_append.mp hpt with hm | hm
    · rcases List.mem_append.mp hm with hm3 | hm3
      · rcases List.mem_ite_nil_left.mp hm3 with ⟨-, hm2⟩
        rcases List.mem_singleton.mp hm2 with rfl
        simp
      · rcases List.mem_ite_nil_left.mp hm3 with ⟨-, hm2⟩
        rcases List.mem_singleton.mp hm2 with rfl
        simp
    · rcases List.mem_cons.mp hm with rfl | hm4
      · simp
      · exact ih _ _ pt hm4

/-- A removed-run start is in particular a left-only pair. -/
theorem isRemPair_leftOnly (p : Pair) (h : isRemPair p = true) :
    leftOnly p = true := by
  cases hl : p.left <;> cases hr : p.right <;>
    simp_all [isRemPair, leftOnly]

/-- An added-run start is in particular a right-only pair. -/
theorem isAddPair_rightOnly (p : Pair) (h : isAddPair p = true) :
    rightOnly p = true := by
  cases hl : p.left <;> cases hr : p.right <;>
    simp_all [isAddPair, rightOnly]

/-- Unfolding of leftOnly into its two option facts. -/
theorem leftOnly_iff (p : Pair) :
    leftOnly p = true ↔ p.left.isSome = true ∧ p.right = none := by
  cases hl : p.left <;> cases hr : p.right <;> simp_all [leftOnly]

/-- Unfolding of rightOnly into its two option facts. -/
theorem rightOnly_iff (p : Pair) :
    rightOnly p = true ↔ p.left = none ∧ p.right.isSome = true := by
  cases hl : p.left <;> cases hr : p.right <;> simp_all [rightOnly]

/-- The head exposed by dropWhile fails the predicate. -/
theorem dropWhile_head_not {α : Type} (p : α → Bool) :
    ∀ (l : List α) (q : α) (qs : List α), l.dropWhile p = q :: qs →
      p q = false := by
  intro l
  induction l with
  | nil => intro q qs h; cases h
  | cons a l ih =>
    intro q qs h
    by_cases hpa : p a = true
    · rw [List.dropWhile_cons_of_pos hpa] at h
      exact ih q qs h
    · rw [List.dropWhile_cons_of_neg hpa] at h
      injection h with h1 _
      subst h1
      simpa using hpa

/-- Explicit form of one merged pair given both constituent lines. -/
theorem mergePair_eq (e : Bool) (pr pa : Pair) (l r : Line)
    (hl : pr.left = some l) (hr : pa.right = some r) :
    mergePair e pr pa =
      if e then
        { left := some { lineNum := l.lineNum, content := l.content,
                         kind := Kind.modified,
                         charDiff := some (computeCharDiff l.content r.content).1 },
          right := some { lineNum := r.lineNum, content := r.content,
                          kind := Kind.modified,
                          charDiff := some (computeCharDiff l.content r.content).2 } }
      else
        { left := some { l with kind := Kind.modified },
          right := some { r with kind := Kind.modified } } := by
  by_cases he : e = true <;> simp [mergePair, hl, hr, he]

/-- Run-extraction form of the removed-run consumer: it appends the whole
left-only prefix to the accumulated run, then either stops, switches to
the added-run consumer, or resumes scanning. -/
theorem dmRem_eq (e : Bool) : ∀ (l run : List Pair),
    dmRem e run l =
      match l.dropWhile leftOnly with
      | [] => run ++ l.takeWhile leftOnly
      | q :: rest2 =>
        if isAddPair q then dmAdd e (run ++ l.takeWhile leftOnly) [q] rest2
        else (run ++ l.takeWhile leftOnly) ++ dmScan e (q :: rest2) := by
  intro l
  induction l with
  | nil => intro run; simp [dmRem]
  | cons p rest ih =>
    intro run
    by_cases hp : leftOnly p = true
    · rw [show dmRem e run (p :: rest) = dmRem e (run ++ [p]) rest from by
        simp [dmRem, hp]]
      rw [ih (run ++ [p])]
      rw [List.dropWhile_cons_of_pos hp, List.takeWhile_cons_of_pos hp]
      rcases hdw : rest.dropWhile leftOnly with _ | ⟨q, rest2⟩ <;> simp
    · have hnp : isRemPair p = true → False := fun hc =>
        by rw [isRemPair_leftOnly p hc] at hp; exact hp rfl
      rw [List.dropWhile_cons_of_neg hp, List.takeWhile_cons_of_neg hp]
      by_cases hq : isAddPair p = true
      · rw [show dmRem e run (p :: rest) = dmAdd e run [p] rest from by
          simp [dmRem, hp, hq]]
        simp [hq]
      · rw [show dmRem e run (p :: rest) = run ++ p :: dmScan e rest from by
          simp [dmRem, hp, hq]]
        have hnp2 : isRemPair p = false := by
          cases hc : isRemPair p
          · rfl
          · exact absurd (isRemPair_leftOnly p hc) hp
        have : dmScan e (p :: rest) = p :: dmScan e rest := by
          simp [dmScan, hnp2]
        simp [hq, this]

/-- Run-extraction form of the added-run consumer: it extends the added run
with the whole right-only prefix, merges, and resumes scanning. -/
theorem dmAdd_eq (e : Bool) : ∀ (l rrun arun : List Pair),
    dmAdd e rrun arun l =
      mergeOut e rrun (arun ++ l.takeWhile rightOnly)
        ++ dmScan e (l.dropWhile rightOnly) := by
  intro l
  induction l with
  | nil => intro rrun arun; simp [dmAdd, dmScan]
  | cons p rest ih =>
    intro rrun arun
    by_cases hp : rightOnly p = true
    · rw [show dmAdd e rrun arun (p :: rest) = dmAdd e rrun (arun ++ [p]) rest
        from by simp [dmAdd, hp]]
      rw [ih rrun (arun ++ [p])]
      rw [List.dropWhile_cons_of_pos hp, List.takeWhile_cons_of_pos hp]
      simp
    · have hnq : isAddPair p = true → False := fun hc =>
        by rw [isAddPair_rightOnly p hc] at hp; exact hp rfl
      rw [List.dropWhile_cons_of_neg hp, List.takeWhile_cons_of_neg hp]
      rw [show dmAdd e rrun arun (p :: rest) =
        mergeOut e rrun arun ++
          (if isRemPair p then dmRem e [p] rest else p :: dmScan e rest)
        from by simp [dmAdd, hp]]
      have : dmScan e (p :: rest) =
          if isRemPair p then dmRem e [p] rest else p :: dmScan e rest := by
        simp [dmScan]
      rw [this]
      simp

/-- Right-only pairs contribute nothing to the left projection. -/
theorem filterMap_projL_of_rightOnly (l : List Pair)
    (h : ∀ p ∈ l, rightOnly p = true) : l.filterMap projL = [] := by
  induction l with
  | nil => rfl
  | cons p l ih =>
    have hp := (rightOnly_iff p).mp (h p (List.mem_cons_self _ _))
    simp [List.filterMap_cons, projL, hp.1,
      ih (fun q hq => h q (List.mem_cons_of_mem _ hq))]

/-- Left-only pairs contribute nothing to the right projection. -/
theorem filterMap_projR_of_leftOnly (l : List Pair)
    (h : ∀ p ∈ l, leftOnly p = true) : l.filterMap projR = [] := by
  induction l with
  | nil => rfl
  | cons p l ih =>
    have hp := (leftOnly_iff p).mp (h p (List.mem_cons_self _ _))
    simp [List.filterMap_cons, projR, hp.2,
      ih (fun q hq => h q (List.mem_cons_of_mem _ hq))]

/-- Projections of the zipped merge of two runs: the left contents of the
removed pairs and the right contents of the added pairs, up to the shorter
length. -/
theorem zip_mergePair_proj (e : Bool) : ∀ (rr1 ar1 : List Pair),
    (∀ p ∈ rr1, leftOnly p = true) → (∀ p ∈ ar1, rightOnly p = true) →
    (List.zipWith (mergePair e) rr1 ar1).filterMap projL =
      (rr1.take ar1.length).filterMap projL ∧
    (List.zipWith (mergePair e) rr1 ar1).filterMap projR =
      (ar1.take rr1.length).filterMap projR := by
  intro rr1
  induction rr1 with
  | nil => intro ar1 _ _; simp
  | cons pr rr ih =>
    intro ar1 hrr har
    cases ar1 with
    | nil => simp
    | cons pa ar =>
      have hlo := (leftOnly_iff pr).mp (hrr pr (List.mem_cons_self _ _))
      have hro := (rightOnly_iff pa).mp (har pa (List.mem_cons_self _ _))
      obtain ⟨l, hl⟩ := Option.isSome_iff_exists.mp hlo.1
      obtain ⟨r, hrg⟩ := Option.isSome_iff_exists.mp hro.2
      obtain ⟨ih1, ih2⟩ := ih ar
        (fun q hq => hrr q (List.mem_cons_of_mem _ hq))
        (fun q hq => har q (List.mem_cons_of_mem _ hq))
      rw [List.zipWith_cons_cons, mergePair_eq e pr pa l r hl hrg]
      constructor
      · cases e <;> simp [List.filterMap_cons, projL, hl, ih1]
      · cases e <;> simp [List.filterMap_cons, projR, hrg, ih2]

/-- Projections of a full run merge: the left projection is that of the
removed run, the right projection that of the added run. -/
theorem mergeOut_proj (e : Bool) (rr ar : List Pair)
    (hrr : ∀ p ∈ rr, leftOnly p = true) (har : ∀ p ∈ ar, rightOnly p = true) :
    (mergeOut e rr ar).filterMap projL = rr.filterMap projL ∧
    (mergeOut e rr ar).filterMap projR = ar.filterMap projR := by
  have hmr : min rr.length ar.length ≤ rr.length := Nat.min_le_left _ _
  have hma : min rr.length ar.length ≤ ar.length := Nat.min_le_right _ _
  obtain ⟨z1, z2⟩ := zip_mergePair_proj e
    (rr.take (min rr.length ar.length)) (ar.take (min rr.length ar.length))
    (fun q hq => hrr q (List.take_subset _ _ hq))
    (fun q hq => har q (List.take_subset _ _ hq))
  rw [List.length_take, Nat.min_eq_left hma] at z1
  rw [List.length_take, Nat.min_eq_left hmr] at z2
  rw [List.take_take, Nat.min_self] at z1 z2
  have hdr : (rr.drop (min rr.length ar.length)).filterMap projR = [] :=
    filterMap_projR_of_leftOnly _ (fun q hq => hrr q (List.drop_subset _ _ hq))
  have hda : (ar.drop (min rr.length ar.length)).filterMap projL = [] :=
    filterMap_projL_of_rightOnly _ (fun q hq => har q (List.drop_subset _ _ hq))
  constructor
  · rw [mergeOut, List.filterMap_append, List.filterMap_append, z1, hda,
      List.append_nil, ← List.filterMap_append, List.take_append_drop]
  · rw [mergeOut, List.filterMap_append, List.filterMap_append, z2, hdr,
      List.append_nil]
    rw [show (ar.take (min rr.length ar.length)).filterMap projR ++
        (ar.drop (min rr.length ar.length)).filterMap projR =
        ar.filterMap projR from by
      rw [← List.filterMap_append, List.take_append_drop]]

/-- The modification scan preserves both content projections of the pair
list: merged pairs keep the removed line's content on the left and move the
added line's content onto the right of the same surviving pair. -/
theorem dmScan_proj (e : Bool) : ∀ (n : Nat) (l : List Pair), l.length ≤ n →
    (dmScan e l).filterMap projL = l.filterMap projL ∧
    (dmScan e l).filterMap projR = l.filterMap projR := by
  intro n
  induction n with
  | zero =>
    intro l hl
    have h0 : l = [] := List.length_eq_zero.mp (Nat.le_zero.mp hl)
    subst h0
    exact ⟨rfl, rfl⟩
  | succ n ih =>
    intro l hl
    cases l with
    | nil => exact ⟨rfl, rfl⟩
    | cons p rest =>
      have hrest_le : rest.length ≤ n := by
        simp only [List.length_cons] at hl
        omega
      by_cases hp : isRemPair p = true
      · have hlo : leftOnly p = true := isRemPair_leftOnly p hp
        obtain ⟨lp, hlp⟩ := Option.isSome_iff_exists.mp ((leftOnly_iff p).mp hlo).1
        have hplv : projL p = some lp.content := by simp [projL, hlp]
        have hprv : projR p = none := by
          simp [projR, ((leftOnly_iff p).mp hlo).2]
        have hscan : dmScan e (p :: rest) = dmRem e [p] rest := by
          simp [dmScan, hp]
        rw [hscan, dmRem_eq]
        rcases hdw : rest.dropWhile leftOnly with _ | ⟨q, rest2⟩
        · have htw : rest.takeWhile leftOnly = rest := by
            have h2 := List.takeWhile_append_dropWhile leftOnly rest
            rwa [hdw, List.append_nil] at h2
          simp [htw]
        · have hrest_eq : rest = rest.takeWhile leftOnly ++ (q :: rest2) := by
            rw [← hdw, List.takeWhile_append_dropWhile]
          have hdrop_le : (q :: rest2).length ≤ rest.length := by
            rw [← hdw]
            exact (List.dropWhile_sublist _).length_le
          dsimp only
          by_cases hq : isAddPair q = true
          · have hro : rightOnly q = true := isAddPair_rightOnly q hq
            obtain ⟨rq, hrq⟩ :=
              Option.isSome_iff_exists.mp ((rightOnly_iff q).mp hro).2
            have hqrv : projR q = some rq.content := by simp [projR, hrq]
            rw [if_pos hq, dmAdd_eq]
            have hrr : ∀ x ∈ [p] ++ rest.takeWhile leftOnly,
                leftOnly x = true := by
              intro x hx
              rcases List.mem_append.mp hx with hx1 | hx2
              · rcases List.mem_singleton.mp hx1 with rfl
                exact hlo
              · exact List.mem_takeWhile_imp hx2
            have har : ∀ x ∈ [q] ++ rest2.takeWhile rightOnly,
                rightOnly x = true := by
              intro x hx
              rcases List.mem_append.mp hx with hx1 | hx2
              · rcases List.mem_singleton.mp hx1 with rfl
                exact hro
              · exact List.mem_takeWhile_imp hx2
            obtain ⟨m1, m2⟩ := mergeOut_proj e _ _ hrr har
            have hle2 : (rest2.dropWhile rightOnly).length ≤ n := by
              have h3 : (rest2.dropWhile rightOnly).length ≤ rest2.length :=
                (List.dropWhile_sublist _).length_le
              simp only [List.length_cons] at hdrop_le
              omega
            obtain ⟨s1, s2⟩ := ih _ hle2
            have hqnone : projL q = none := by
              simp [projL, ((rightOnly_iff q).mp hro).1]
            have hpnone : projR p = none := by
              simp [projR, ((leftOnly_iff p).mp hlo).2]
            have htwrL : (rest2.takeWhile rightOnly).filterMap projL = [] :=
              filterMap_projL_of_rightOnly _
                (fun x hx => List.mem_takeWhile_imp hx)
            have htwlR : (rest.takeWhile leftOnly).filterMap projR = [] :=
              filterMap_projR_of_leftOnly _
                (fun x hx => List.mem_takeWhile_imp hx)
            constructor
            · rw [List.filterMap_append, m1, s1]
              have h5 : (rest2.dropWhile rightOnly).filterMap projL =
                  rest2.filterMap projL := by
                conv_rhs => rw [← List.takeWhile_append_dropWhile rightOnly rest2]
                rw [List.filterMap_append, htwrL, List.nil_append]
              rw [h5]
              conv_rhs => rw [hrest_eq]
              simp [List.filterMap_cons, List.filterMap_append, hqnone, hplv]
            · rw [List.filterMap_append, m2, s2]
              have hq1 : ([q] ++ rest2.takeWhile rightOnly) =
                  (q :: rest2).takeWhile rightOnly := by
                simp [List.takeWhile_cons_of_pos hro]
              have hq2 : rest2.dropWhile rightOnly =
                  (q :: rest2).dropWhile rightOnly := by
                simp [List.dropWhile_cons_of_pos hro]
              rw [hq1, hq2, ← List.filterMap_append,
                List.takeWhile_append_dropWhile]
              conv_rhs => rw [hrest_eq]
              simp [List.filterMap_cons, List.filterMap_append, hpnone,
                htwlR, hqrv]
          · have hle2 : (q :: rest2).length ≤ n := Nat.le_trans hdrop_le hrest_le
            obtain ⟨s1, s2⟩ := ih _ hle2
            rw [if_neg hq]
            constructor
            · rw [List.filterMap_append, s1]
              conv_rhs => rw [hrest_eq]
              simp [List.filterMap_append, List.filterMap_cons, hplv]
            · rw [List.filterMap_append, s2]
              conv_rhs => rw [hrest_eq]
              simp [List.filterMap_append, List.filterMap_cons, hprv]
      · have hscan : dmScan e (p :: rest) = p :: dmScan e rest := by
          simp [dmScan, hp]
        obtain ⟨s1, s2⟩ := ih rest hrest_le
        rw [hscan]
        constructor <;> simp [List.filterMap_cons, s1, s2]

/-- A pair list with no removed-run start is left untouched by the scan. -/
theorem dmScan_id (e : Bool) : ∀ (l : List Pair),
    (∀ p ∈ l, isRemPair p = false) → dmScan e l = l := by
  intro l
  induction l with
  | nil => intro _; rfl
  | cons p rest ih =>
    intro h
    have hp : isRemPair p = false := h p (List.mem_cons_self _ _)
    simp [dmScan, hp, ih (fun q hq => h q (List.mem_cons_of_mem _ hq))]

/-- A PreS pair that is left-only is a removed line with no char diff. -/
theorem PreS_leftOnly (p : Pair) (hS : PreS p) (hlo : leftOnly p = true) :
    ∃ l, p.left = some l ∧ p.right = none ∧ l.kind = Kind.removed ∧
      l.charDiff = none := by
  have hre : p.right = none := ((leftOnly_iff p).mp hlo).2
  rcases hS with ⟨l, h1, h2, h3, h4⟩ | ⟨r, h1, h2, h3, h4⟩ |
    ⟨l, r, h1, h2, h3, h4, h5, h6, h7⟩
  · exact ⟨l, h1, h2, h3, h4⟩
  · rw [h2] at hre; cases hre
  · rw [h2] at hre; cases hre

/-- A PreS pair that is right-only is an added line with no char diff. -/
theorem PreS_rightOnly (p : Pair) (hS : PreS p) (hro : rightOnly p = true) :
    ∃ r, p.left = none ∧ p.right = some r ∧ r.kind = Kind.added ∧
      r.charDiff = none := by
  have hle : p.left = none := ((rightOnly_iff p).mp hro).1
  rcases hS with ⟨l, h1, h2, h3, h4⟩ | ⟨r, h1, h2, h3, h4⟩ |
    ⟨l, r, h1, h2, h3, h4, h5, h6, h7⟩
  · rw [h1] at hle; cases hle
  · exact ⟨r, h1, h2, h3, h4⟩
  · rw [h1] at hle; cases hle

/-- Every pair of a merged two-run zip is atomically modified, with a char
diff present exactly when enabled. -/
theorem zip_mergePair_inv (e : Bool) (rr1 ar1 : List Pair)
    (hrr : ∀ p ∈ rr1, PreS p ∧ leftOnly p = true)
    (har : ∀ p ∈ ar1, PreS p ∧ rightOnly p = true) :
    ∀ x ∈ List.zipWith (mergePair e) rr1 ar1,
      ∃ l r, x.left = some l ∧ x.right = some r ∧ l.kind = Kind.modified ∧
        r.kind = Kind.modified ∧ l.charDiff.isSome = e ∧
        r.charDiff.isSome = e := by
  intro x hx
  obtain ⟨pr, pa, hpr, hpa, rfl⟩ := mem_zipWith hx
  obtain ⟨hSr, hlor⟩ := hrr pr hpr
  obtain ⟨hSa, hroa⟩ := har pa hpa
  obtain ⟨lp, hl, -, -, hlcd⟩ := PreS_leftOnly pr hSr hlor
  obtain ⟨rq, -, hr, -, hrcd⟩ := PreS_rightOnly pa hSa hroa
  rw [mergePair_eq e pr pa lp rq hl hr]
  cases e
  · refine ⟨{ lp with kind := Kind.modified },
      { rq with kind := Kind.modified }, ?_, ?_, ?_, ?_, ?_, ?_⟩ <;>
      simp [hlcd, hrcd]
  · exact ⟨_, _, rfl, rfl, rfl, rfl, by simp, by simp⟩

/-- Every pair surviving the modification scan of a PreS pair list is
either untouched or an atomically merged modified pair. -/
theorem dmScan_inv (e : Bool) : ∀ (n : Nat) (l : List Pair),
    l.length ≤ n → (∀ p ∈ l, PreS p) → ∀ x ∈ dmScan e l, PostS e x := by
  intro n
  induction n with
  | zero =>
    intro l hl _
    have h0 : l = [] := List.length_eq_zero.mp (Nat.le_zero.mp hl)
    subst h0
    intro x hx
    cases hx
  | succ n ih =>
    intro l hl hS
    cases l with
    | nil => intro x hx; cases hx
    | cons p rest =>
      have hrest_le : rest.length ≤ n := by
        simp only [List.length_cons] at hl
        omega
      have hSrest : ∀ q ∈ rest, PreS q :=
        fun q hq => hS q (List.mem_cons_of_mem _ hq)
      by_cases hp : isRemPair p = true
      · have hlo : leftOnly p = true := isRemPair_leftOnly p hp
        have hscan : dmScan e (p :: rest) = dmRem e [p] rest := by
          simp [dmScan, hp]
        rw [hscan, dmRem_eq]
        have hrun_mem : ∀ x ∈ [p] ++ rest.takeWhile leftOnly, x ∈ p :: rest := by
          intro x hx
          rcases List.mem_append.mp hx with hx1 | hx2
          · rcases List.mem_singleton.mp hx1 with rfl
            exact List.mem_cons_self _ _
          · exact List.mem_cons_of_mem _ ((List.takeWhile_sublist _).subset hx2)
        have hrun_lo : ∀ x ∈ [p] ++ rest.takeWhile leftOnly,
            leftOnly x = true := by
          intro x hx
          rcases List.mem_append.mp hx with hx1 | hx2
          · rcases List.mem_singleton.mp hx1 with rfl
            exact hlo
          · exact List.mem_takeWhile_imp hx2
        rcases hdw : rest.dropWhile leftOnly with _ | ⟨q, rest2⟩
        · intro x hx
          exact Or.inl (hS x (hrun_mem x hx))
        · have hdrop_mem : ∀ x ∈ q :: rest2, x ∈ rest := by
            intro x hx
            rw [← hdw] at hx
            exact (List.dropWhile_sublist _).subset hx
          have hdrop_le : (q :: rest2).length ≤ rest.length := by
            rw [← hdw]
            exact (List.dropWhile_sublist _).length_le
          dsimp only
          by_cases hq : isAddPair q = true
          · have hro : rightOnly q = true := isAddPair_rightOnly q hq
            rw [if_pos hq, dmAdd_eq]
            have har_mem : ∀ x ∈ [q] ++ rest2.takeWhile rightOnly,
                x ∈ q :: rest2 := by
              intro x hx
              rcases List.mem_append.mp hx with hx1 | hx2
              · rcases List.mem_singleton.mp hx1 with rfl
                exact List.mem_cons_self _ _
              · exact List.mem_cons_of_mem _
                  ((List.takeWhile_sublist _).subset hx2)
            have har_ro : ∀ x ∈ [q] ++ rest2.takeWhile rightOnly,
                rightOnly x = true := by
              intro x hx
              rcases List.mem_append.mp hx with hx1 | hx2
              · rcases List.mem_singleton.mp hx1 with rfl
                exact hro
              · exact List.mem_takeWhile_imp hx2
            have hle2 : (rest2.dropWhile rightOnly).length ≤ n := by
              have h3 : (rest2.dropWhile rightOnly).length ≤ rest2.length :=
                (List.dropWhile_sublist _).length_le
              simp only [List.length_cons] at hdrop_le
              omega
            have hS2 : ∀ x ∈ rest2.dropWhile rightOnly, PreS x := by
              intro x hx
              exact hSrest x (hdrop_mem x (List.mem_cons_of_mem _
                ((List.dropWhile_sublist _).subset hx)))
            intro x hx
            rcases List.mem_append.mp hx with hx1 | hx2
            · rw [mergeOut] at hx1
              rcases List.mem_append.mp hx1 with hx3 | hx4
              · rcases List.mem_append.mp hx3 with hx5 | hx6
                · refine Or.inr ?_
                  refine zip_mergePair_inv e _ _ ?_ ?_ x hx5
                  · intro y hy
                    have hy2 := List.take_subset _ _ hy
                    exact ⟨hS y (hrun_mem y hy2), hrun_lo y hy2⟩
                  · intro y hy
                    have hy2 := List.take_subset _ _ hy
                    exact ⟨hSrest y (hdrop_mem y (har_mem y hy2)),
                      har_ro y hy2⟩
                · refine Or.inl ?_
                  have hy2 := List.drop_subset _ _ hx6
                  exact hS x (hrun_mem x hy2)
              · refine Or.inl ?_
                have hy2 := List.drop_subset _ _ hx4
                exact hSrest x (hdrop_mem x (har_mem x hy2))
            · exact ih _ hle2 hS2 x hx2
          · rw [if_neg hq]
            have hle2 : (q :: rest2).length ≤ n :=
              Nat.le_trans hdrop_le hrest_le
            intro x hx
            rcases List.mem_append.mp hx with hx1 | hx2
            · exact Or.inl (hS x (hrun_mem x hx1))
            · exact ih _ hle2
                (fun y hy => hSrest y (hdrop_mem y hy)) x hx2
      · have hscan : dmScan e (p :: rest) = p :: dmScan e rest := by
          simp [dmScan, hp]
        rw [hscan]
        intro x hx
        rcases List.mem_cons.mp hx with rfl | hx2
        · exact Or.inl (hS x (List.mem_cons_self _ _))
        · exact ih rest hrest_le hSrest x hx2

/-- A removed-run start is not right-only. -/
theorem isRemPair_not_rightOnly (p : Pair) (h : isRemPair p = true) :
    rightOnly p = false := by
  obtain ⟨h1, h2⟩ := (leftOnly_iff p).mp (isRemPair_leftOnly p h)
  cases hl : p.left
  · rw [hl] at h1; cases h1
  · simp [rightOnly, hl]

/-- An added-run start is not left-only. -/
theorem isAddPair_not_leftOnly (p : Pair) (h : isAddPair p = true) :
    leftOnly p = false := by
  obtain ⟨h1, h2⟩ := (rightOnly_iff p).mp (isAddPair_rightOnly p h)
  simp [leftOnly, h1]

/-- A nonempty suffix has the same last element. -/
theorem getLast?_of_suffix {α : Type} (l1 l2 : List α)
    (h : List.IsSuffix l2 l1) (hne : l2 ≠ []) :
    l2.getLast? = l1.getLast? := by
  obtain ⟨t, ht⟩ := h
  rw [← ht, List.getLast?_append_of_ne_nil _ hne]

/-- A list all of whose elements satisfy the predicate is its own
takeWhile, and its dropWhile is empty. -/
theorem takeWhile_all_dropWhile_nil {α : Type} (p : α → Bool) (l : List α)
    (h : ∀ x ∈ l, p x = true) :
    l.takeWhile p = l ∧ l.dropWhile p = [] := by
  induction l with
  | nil => exact ⟨rfl, rfl⟩
  | cons a l ih =>
    have ha := h a (List.mem_cons_self _ _)
    obtain ⟨ih1, ih2⟩ := ih (fun x hx => h x (List.mem_cons_of_mem _ hx))
    rw [List.takeWhile_cons_of_pos ha, List.dropWhile_cons_of_pos ha, ih1, ih2]
    exact ⟨rfl, rfl⟩

/-- The scan on a removed run immediately followed by an added run merges
exactly the two runs and resumes on the remainder. -/
theorem dmScan_run (e : Bool) (rr ar post : List Pair)
    (hrr : ∀ p ∈ rr, isRemPair p = true)
    (har : ∀ p ∈ ar, isAddPair p = true)
    (hrne : rr ≠ []) (hane : ar ≠ [])
    (hpost : ∀ q ∈ post.head?.toList, rightOnly q = false) :
    dmScan e (rr ++ ar ++ post) = mergeOut e rr ar ++ dmScan e post := by
  cases rr with
  | nil => cases hrne rfl
  | cons p rr2 =>
  cases ar with
  | nil => cases hane rfl
  | cons a0 ar2 =>
  have hp : isRemPair p = true := hrr p (List.mem_cons_self _ _)
  have ha0 : isAddPair a0 = true := har a0 (List.mem_cons_self _ _)
  have hrr2lo : ∀ x ∈ rr2, leftOnly x = true := fun x hx =>
    isRemPair_leftOnly x (hrr x (List.mem_cons_of_mem _ hx))
  have har2ro : ∀ x ∈ ar2, rightOnly x = true := fun x hx =>
    isAddPair_rightOnly x (har x (List.mem_cons_of_mem _ hx))
  obtain ⟨htw2, hdw2⟩ := takeWhile_all_dropWhile_nil leftOnly rr2 hrr2lo
  obtain ⟨htwa, hdwa⟩ := takeWhile_all_dropWhile_nil rightOnly ar2 har2ro
  have hscan : dmScan e ((p :: rr2) ++ (a0 :: ar2) ++ post) =
      dmRem e [p] (rr2 ++ ((a0 :: ar2) ++ post)) := by
    simp [dmScan, hp, List.append_assoc]
  rw [hscan, dmRem_eq]
  have hhead : ∀ q, ((a0 :: ar2) ++ post).head? = some q →
      leftOnly q = false := by
    intro q hq
    simp only [List.cons_append, List.head?_cons, Option.some.injEq] at hq
    rw [← hq]
    exact isAddPair_not_leftOnly a0 ha0
  rw [takeWhile_append_stop leftOnly rr2 _ hhead,
    dropWhile_append_stop leftOnly rr2 _ hhead, htw2, hdw2, List.nil_append]
  dsimp only [List.cons_append]
  rw [if_pos ha0, dmAdd_eq]
  have hheadp : ∀ q, post.head? = some q → rightOnly q = false := by
    intro q hq
    apply hpost
    rw [hq]
    simp
  rw [takeWhile_append_stop rightOnly ar2 post hheadp,
    dropWhile_append_stop rightOnly ar2 post hheadp, htwa, hdwa,
    List.nil_append]
  simp

/-- The scan on a removed run not immediately followed by an added run
leaves the run untouched and resumes right after it. -/
theorem dmScan_run_noadd (e : Bool) (rr post : List Pair)
    (hrr : ∀ p ∈ rr, isRemPair p = true) (hrne : rr ≠ [])
    (hpost : ∀ q ∈ post.head?.toList,
      leftOnly q = false ∧ isAddPair q = false) :
    dmScan e (rr ++ post) = rr ++ dmScan e post := by
  cases rr with
  | nil => cases hrne rfl
  | cons p rr2 =>
  have hp : isRemPair p = true := hrr p (List.mem_cons_self _ _)
  have hrr2lo : ∀ x ∈ rr2, leftOnly x = true := fun x hx =>
    isRemPair_leftOnly x (hrr x (List.mem_cons_of_mem _ hx))
  obtain ⟨htw2, hdw2⟩ := takeWhile_all_dropWhile_nil leftOnly rr2 hrr2lo
  have hscan : dmScan e ((p :: rr2) ++ post) =
      dmRem e [p] (rr2 ++ post) := by
    simp [dmScan, hp]
  rw [hscan, dmRem_eq]
  have hhead : ∀ q, post.head? = some q → leftOnly q = false := by
    intro q hq
    have := hpost q (by rw [hq]; simp)
    exact this.1
  rw [takeWhile_append_stop leftOnly rr2 _ hhead,
    dropWhile_append_stop leftOnly rr2 _ hhead, htw2, hdw2, List.nil_append]
  cases hpc : post with
  | nil => simp [dmScan]
  | cons q post2 =>
    have hqfacts := hpost q (by rw [hpc]; simp)
    dsimp only
    rw [if_neg (by simp [hqfacts.2])]
    have hqscan : dmScan e (q :: post2) = q :: dmScan e post2 := by
      have hqrem : isRemPair q = false := by
        cases hc : isRemPair q
        · rfl
        · rw [isRemPair_leftOnly q hc] at hqfacts
          cases hqfacts.1
      simp [dmScan, hqrem]
    simp [hqscan]

/-- Scanning localizes across a boundary: when the prefix does not end in a
left-only pair (no removed run can straddle the boundary) and the suffix
does not begin with a right-only pair (no added run can straddle it), the
scan of the concatenation is the concatenation of the scans. -/
theorem dmScan_append (e : Bool) : ∀ (n : Nat) (pre X : List Pair),
    pre.length ≤ n →
    (∀ q ∈ pre.getLast?.toList, leftOnly q = false) →
    (∀ q ∈ X.head?.toList, rightOnly q = false) →
    dmScan e (pre ++ X) = dmScan e pre ++ dmScan e X := by
  intro n
  induction n with
  | zero =>
    intro pre X hlen _ _
    have h0 : pre = [] := List.length_eq_zero.mp (Nat.le_zero.mp hlen)
    subst h0
    simp [dmScan]
  | succ n ih =>
    intro pre X hlen hlast hX
    cases pre with
    | nil => simp [dmScan]
    | cons p t =>
      have hXhead : ∀ q, X.head? = some q → rightOnly q = false :=
        fun q hq2 => hX q (by rw [hq2]; simp)
      by_cases hp : isRemPair p = true
      · have hlo := isRemPair_leftOnly p hp
        have htne : t ≠ [] := by
          intro h0
          subst h0
          have h1 := hlast p (by simp)
          rw [hlo] at h1
          cases h1
        have hlast_t : ∀ q ∈ t.getLast?.toList, leftOnly q = false := by
          intro q hq
          apply hlast
          cases t with
          | nil => cases htne rfl
          | cons b t2 => rw [List.getLast?_cons_cons]; exact hq
        have hex : ∃ x ∈ t, leftOnly x = false := by
          cases hgl : t.getLast? with
          | none => exact absurd (List.getLast?_eq_none_iff.mp hgl) htne
          | some z =>
            refine ⟨z, List.mem_of_mem_getLast? ?_, hlast_t z (by rw [hgl]; simp)⟩
            rw [hgl]; rfl
        obtain ⟨tw_eq, dw_eq, dw_ne⟩ := takeWhile_append_not_all leftOnly t X hex
        have hscan1 : dmScan e ((p :: t) ++ X) = dmRem e [p] (t ++ X) := by
          simp [dmScan, hp]
        have hscan2 : dmScan e (p :: t) = dmRem e [p] t := by
          simp [dmScan, hp]
        rw [hscan1, hscan2, dmRem_eq, dmRem_eq, tw_eq, dw_eq]
        cases hd : t.dropWhile leftOnly with
        | nil => exact absurd hd dw_ne
        | cons d0 d2 =>
          have hsfx : List.IsSuffix (d0 :: d2) (p :: t) := by
            have h3 : List.IsSuffix (t.dropWhile leftOnly) t :=
              List.dropWhile_suffix _
            rw [hd] at h3
            exact h3.trans (List.suffix_cons p t)
          have hlen_d : (d0 :: d2).length ≤ t.length := by
            rw [← hd]
            exact (List.dropWhile_sublist _).length_le
          have hlen_t : t.length ≤ n := by
            simp only [List.length_cons] at hlen
            omega
          simp only [List.cons_append]
          by_cases hq : isAddPair d0 = true
          · rw [if_pos hq, if_pos hq, dmAdd_eq, dmAdd_eq]
            rw [takeWhile_append_stop rightOnly d2 X hXhead,
              dropWhile_append_stop rightOnly d2 X hXhead]
            have hlen2 : (d2.dropWhile rightOnly).length ≤ n := by
              have h2 : (d2.dropWhile rightOnly).length ≤ d2.length :=
                (List.dropWhile_sublist _).length_le
              simp only [List.length_cons] at hlen_d
              omega
            have hlast2 : ∀ q ∈ (d2.dropWhile rightOnly).getLast?.toList,
                leftOnly q = false := by
              intro q hq2
              have hne2 : d2.dropWhile rightOnly ≠ [] := by
                intro h0
                rw [h0] at hq2
                simp at hq2
              have hsfx2 : List.IsSuffix (d2.dropWhile rightOnly) (p :: t) :=
                ((List.dropWhile_suffix _).trans
                  (List.suffix_cons d0 d2)).trans hsfx
              have heq := getLast?_of_suffix (p :: t) _ hsfx2 hne2
              apply hlast
              rw [← heq]
              exact hq2
            rw [ih (d2.dropWhile rightOnly) X hlen2 hlast2 hX,
              List.append_assoc]
          · rw [if_neg hq, if_neg hq]
            have hlast3 : ∀ q ∈ (d0 :: d2).getLast?.toList,
                leftOnly q = false := by
              intro q hq2
              have heq := getLast?_of_suffix (p :: t) _ hsfx
                (List.cons_ne_nil _ _)
              apply hlast
              rw [← heq]
              exact hq2
            have hstep : d0 :: (d2 ++ X) = (d0 :: d2) ++ X := rfl
            rw [hstep, ih (d0 :: d2) X (Nat.le_trans hlen_d hlen_t) hlast3 hX]
            simp
      · have hscan1 : dmScan e ((p :: t) ++ X) = p :: dmScan e (t ++ X) := by
          simp [dmScan, hp]
        have hscan2 : dmScan e (p :: t) = p :: dmScan e t := by
          simp [dmScan, hp]
        rw [hscan1, hscan2]
        cases t with
        | nil => simp [dmScan]
        | cons b t2 =>
          have hlast_t : ∀ q ∈ (b :: t2).getLast?.toList,
              leftOnly q = false := by
            intro q hq
            apply hlast
            rw [List.getLast?_cons_cons]
            exact hq
          have hlen_t : (b :: t2).length ≤ n := by
            simp only [List.length_cons] at hlen ⊢
            omega
          rw [ih (b :: t2) X hlen_t hlast_t hX]
          simp

/-- C2: in the modification-detection pass, a maximal contiguous removed
run of length R immediately followed by a maximal added run of length A
yields exactly min(R, A) merged pairs (index i of the removed run with
index i of the added run, both sides Modified), the |R - A| excess pairs of
the longer run surviving unchanged immediately after them, with the scan of
the surrounding pairs unaffected; and a removed run not immediately
followed by an added run is left untouched. -/
theorem detectModifications_merge_cardinality (e : Bool)
    (pre rr ar post : List Pair)
    (hrr : ∀ p ∈ rr, isRemPair p = true)
    (har : ∀ p ∈ ar, isAddPair p = true)
    (hrne : rr ≠ []) (hane : ar ≠ [])
    (hpre : ∀ q ∈ pre.getLast?.toList, leftOnly q = false)
    (hpost : ∀ q ∈ post.head?.toList, rightOnly q = false) :
    detectModifications e (pre ++ rr ++ ar ++ post) =
      detectModifications e pre
        ++ List.zipWith (mergePair e) (rr.take (min rr.length ar.length))
            (ar.take (min rr.length ar.length))
        ++ rr.drop (min rr.length ar.length)
        ++ ar.drop (min rr.length ar.length)
        ++ detectModifications e post ∧
    (List.zipWith (mergePair e) (rr.take (min rr.length ar.length))
        (ar.take (min rr.length ar.length))).length =
      min rr.length ar.length ∧
    (∀ x ∈ List.zipWith (mergePair e) (rr.take (min rr.length ar.length))
        (ar.take (min rr.length ar.length)),
      ∃ l r, x.left = some l ∧ x.right = some r ∧
        l.kind = Kind.modified ∧ r.kind = Kind.modified) ∧
    (∀ (rr2 post2 : List Pair), (∀ p ∈ rr2, isRemPair p = true) →
      rr2 ≠ [] →
      (∀ q ∈ post2.head?.toList, leftOnly q = false ∧ isAddPair q = false) →
      detectModifications e (pre ++ rr2 ++ post2) =
        detectModifications e pre ++ rr2 ++ detectModifications e post2) := by
  refine ⟨?_, ?_, ?_, ?_⟩
  · have hXr : ∀ q ∈ (rr ++ ar ++ post).head?.toList, rightOnly q = false := by
      intro q hq
      cases rr with
      | nil => cases hrne rfl
      | cons r0 rrt =>
        simp only [List.cons_append, List.head?_cons, Option.toList_some,
          List.mem_singleton] at hq
        subst hq
        exact isRemPair_not_rightOnly q (hrr q (List.mem_cons_self _ _))
    have hassoc : pre ++ rr ++ ar ++ post = pre ++ (rr ++ ar ++ post) := by
      simp
    rw [detectModifications, detectModifications, detectModifications, hassoc]
    rw [dmScan_append e pre.length pre _ (Nat.le_refl _) hpre hXr]
    rw [dmScan_run e rr ar post hrr har hrne hane hpost]
    rw [mergeOut]
    simp
  · rw [List.length_zipWith, List.length_take, List.length_take]
    have h1 : min rr.length ar.length ≤ rr.length := Nat.min_le_left _ _
    have h2 : min rr.length ar.length ≤ ar.length := Nat.min_le_right _ _
    omega
  · intro x hx
    obtain ⟨pr, pa, hpr, hpa, rfl⟩ := mem_zipWith hx
    have hprr : isRemPair pr = true := hrr pr (List.take_subset _ _ hpr)
    have hpaa : isAddPair pa = true := har pa (List.take_subset _ _ hpa)
    obtain ⟨lp, hl⟩ := Option.isSome_iff_exists.mp
      ((leftOnly_iff pr).mp (isRemPair_leftOnly pr hprr)).1
    obtain ⟨rq, hr⟩ := Option.isSome_iff_exists.mp
      ((rightOnly_iff pa).mp (isAddPair_rightOnly pa hpaa)).2
    rw [mergePair_eq e pr pa lp rq hl hr]
    cases e
    · exact ⟨_, _, rfl, rfl, rfl, rfl⟩
    · exact ⟨_, _, rfl, rfl, rfl, rfl⟩
  · intro rr2 post2 hrr2 hrne2 hpost2
    have hXr : ∀ q ∈ (rr2 ++ post2).head?.toList, rightOnly q = false := by
      intro q hq
      cases rr2 with
      | nil => cases hrne2 rfl
      | cons r0 rrt =>
        simp only [List.cons_append, List.head?_cons, Option.toList_some,
          List.mem_singleton] at hq
        subst hq
        exact isRemPair_not_rightOnly q (hrr2 q (List.mem_cons_self _ _))
    have hassoc : pre ++ rr2 ++ post2 = pre ++ (rr2 ++ post2) := by simp
    rw [detectModifications, detectModifications, detectModifications, hassoc]
    rw [dmScan_append e pre.length pre _ (Nat.le_refl _) hpre hXr]
    rw [dmScan_run_noadd e rr2 post2 hrr2 hrne2 hpost2]
    simp

/-- Witness for the C2 theorem: one unchanged pair, a removed run of two,
an added run of one, one unchanged pair; exactly min(2,1) = 1 merged pair
is produced and the removed excess survives in place. -/
theorem detectModifications_merge_cardinality_witness :
    ((∀ p ∈ [wrPair 2 "a", wrPair 3 "b"], isRemPair p = true) ∧
      (∀ p ∈ [waPair 2 "x"], isAddPair p = true) ∧
      ([wrPair 2 "a", wrPair 3 "b"] : List Pair) ≠ [] ∧
      ([waPair 2 "x"] : List Pair) ≠ [] ∧
      (∀ q ∈ ([wuPair 1 1 "u"] : List Pair).getLast?.toList,
        leftOnly q = false) ∧
      (∀ q ∈ ([wuPair 4 3 "c"] : List Pair).head?.toList,
        rightOnly q = false)) ∧
    detectModifications false
        ([wuPair 1 1 "u"] ++ [wrPair 2 "a", wrPair 3 "b"] ++ [waPair 2 "x"]
          ++ [wuPair 4 3 "c"]) =
      detectModifications false [wuPair 1 1 "u"]
        ++ List.zipWith (mergePair false)
            (([wrPair 2 "a", wrPair 3 "b"] : List Pair).take
              (min ([wrPair 2 "a", wrPair 3 "b"] : List Pair).length
                ([waPair 2 "x"] : List Pair).length))
            (([waPair 2 "x"] : List Pair).take
              (min ([wrPair 2 "a", wrPair 3 "b"] : List Pair).length
                ([waPair 2 "x"] : List Pair).length))
        ++ ([wrPair 2 "a", wrPair 3 "b"] : List Pair).drop
            (min ([wrPair 2 "a", wrPair 3 "b"] : List Pair).length
              ([waPair 2 "x"] : List Pair).length)
        ++ ([waPair 2 "x"] : List Pair).drop
            (min ([wrPair 2 "a", wrPair 3 "b"] : List Pair).length
              ([waPair 2 "x"] : List Pair).length)
        ++ detectModifications false [wuPair 4 3 "c"] :=
  ⟨⟨by decide, by decide, by decide, by decide, by decide, by decide⟩,
    (detectModifications_merge_cardinality false [wuPair 1 1 "u"]
      [wrPair 2 "a", wrPair 3 "b"] [waPair 2 "x"] [wuPair 4 3 "c"]
      (by decide) (by decide) (by decide) (by decide) (by decide)
      (by decide)).1⟩

/-- C10: each iteration of detectModifications' while loop strictly
increases the scan index: a removed-run start advances past the whole run
(and past the following added run when one is merged), every other pair
advances the index by one, so the single left-to-right scan terminates and
never re-enters an already-classified run. -/
theorem detect_loop_index_increases (pairs : List Pair) (i : Nat)
    (h : i < pairs.length) : i < loopStep pairs i := by
  cases hd : pairs.drop i with
  | nil => simp [loopStep, hd]
  | cons p s2 =>
    simp only [loopStep, hd]
    by_cases hp : isRemPair p = true
    · simp only [hp, if_true]
      have hk : 1 ≤ ((p :: s2).takeWhile leftOnly).length := by
        rw [List.takeWhile_cons_of_pos (isRemPair_leftOnly p hp)]
        simp
      split <;> omega
    · simp [hp]

/-- Witness for C10 on a one-element pair list at index 0. -/
theorem detect_loop_index_increases_witness :
    0 < ([wrPair 1 "a"] : List Pair).length ∧
      0 < loopStep [wrPair 1 "a"] 0 :=
  ⟨by decide, detect_loop_index_increases [wrPair 1 "a"] 0 (by decide)⟩

/-- Reconstruction of both sides from the processed pairs, for any
char-diff flag. -/
theorem processDiff_reconstruct (L R : String) (e : Bool) :
    ((processDiff (diffLines L R) e).pairs.filterMap projL) =
      splitTextSpec L ∧
    ((processDiff (diffLines L R) e).pairs.filterMap projR) =
      splitTextSpec R := by
  have hflags := alignWith_flags (lcs (splitTextSpec L) (splitTextSpec R))
    (splitTextSpec L) (splitTextSpec R)
  have hdl : diffLines L R = alignWith (splitTextSpec L) (splitTextSpec R)
      (lcs (splitTextSpec L) (splitTextSpec R)) := rfl
  obtain ⟨f1, f2⟩ := foldl_procPart_proj (diffLines L R) initPState
  have hpairs : (processDiff (diffLines L R) e).pairs =
      dmScan e (((diffLines L R).foldl procPart initPState).pairs) := rfl
  obtain ⟨d1, d2⟩ := dmScan_proj e
    (((diffLines L R).foldl procPart initPState).pairs.length) _ (Nat.le_refl _)
  constructor
  · rw [hpairs, d1, f1]
    simp only [initPState, List.filterMap_nil, List.nil_append]
    rw [hdl]
    exact alignWith_left_reconstruct _ _ _ (lcs_sublist_left _ _)
  · rw [hpairs, d2, f2]
    simp only [initPState, List.filterMap_nil, List.nil_append]
    rw [hdl]
    have hcong : (alignWith (splitTextSpec L) (splitTextSpec R)
        (lcs (splitTextSpec L) (splitTextSpec R))).map
          (fun pt => if pt.added = false && pt.removed = true then []
            else pt.value) =
        (alignWith (splitTextSpec L) (splitTextSpec R)
          (lcs (splitTextSpec L) (splitTextSpec R))).map
          (fun pt => if pt.removed = true then [] else pt.value) := by
      apply List.map_congr_left
      intro pt hpt
      rcases hflags pt hpt with hfa | hfr
      · rw [hfa]
        cases hfr2 : pt.removed <;> simp
      · rw [hfr]
        simp
    rw [hcong]
    exact alignWith_right_reconstruct _ _ _ (lcs_sublist_right _ _)

/-- C3: projecting the left sides of the final pair sequence of compare, in
order and dropping absent sides, reproduces the left input's line sequence
(its section 4.1 lines) verbatim, and likewise for the right sides. -/
theorem compare_projection_reconstruction (eng : DiffEngine)
    (L R : String) :
    ((compare eng L R).diffResult.pairs.filterMap projL) =
      splitTextSpec L ∧
    ((compare eng L R).diffResult.pairs.filterMap projR) =
      splitTextSpec R := by
  have hres : (compare eng L R).diffResult =
      processDiff (diffLines L R)
        (decide ((splitLines L).length + (splitLines R).length <
          eng.maxLinesForCharDiff)) := rfl
  rw [hres]
  exact processDiff_reconstruct L R _

/-- Each pairing step only appends PreS pairs. -/
theorem procLine_PreS (a r : Bool) (line : String) (st : PState)
    (h : ∀ p ∈ st.pairs, PreS p) :
    ∀ p ∈ (procLine a r st line).pairs, PreS p := by
  intro p hp
  by_cases ha : a = true
  · simp only [procLine, ha, if_true] at hp
    rcases List.mem_append.mp hp with hp1 | hp2
    · exact h p hp1
    · rcases List.mem_singleton.mp hp2 with rfl
      exact Or.inr (Or.inl ⟨_, rfl, rfl, rfl, rfl⟩)
  · by_cases hr : r = true
    · simp only [procLine, ha, hr, if_true, if_false, Bool.false_eq_true] at hp
      rcases List.mem_append.mp hp with hp1 | hp2
      · exact h p hp1
      · rcases List.mem_singleton.mp hp2 with rfl
        exact Or.inl ⟨_, rfl, rfl, rfl, rfl⟩
    · simp only [procLine, ha, hr, if_false, Bool.false_eq_true] at hp
      rcases List.mem_append.mp hp with hp1 | hp2
      · exact h p hp1
      · rcases List.mem_singleton.mp hp2 with rfl
        exact Or.inr (Or.inr ⟨_, _, rfl, rfl, rfl, rfl, rfl, rfl, rfl⟩)

/-- The whole pairing loop only builds PreS pairs. -/
theorem foldl_procPart_PreS (parts : List (Seg String)) :
    ∀ st : PState, (∀ p ∈ st.pairs, PreS p) →
      ∀ p ∈ (parts.foldl procPart st).pairs, PreS p := by
  induction parts with
  | nil => intro st h; exact h
  | cons pt parts ih =>
    intro st h
    apply ih
    show ∀ p ∈ (pt.value.foldl (procLine pt.added pt.removed) st).pairs, PreS p
    clear ih
    induction pt.value generalizing st with
    | nil => exact h
    | cons line lines ih2 =>
      intro p hp
      exact ih2 (procLine pt.added pt.removed st line)
        (procLine_PreS pt.added pt.removed line st h) p hp

/-- Every pair of a compare result satisfies PostS for the char-diff flag
compare chose. -/
theorem compare_PostS (eng : DiffEngine) (L R : String) :
    ∀ p ∈ (compare eng L R).diffResult.pairs,
      PostS (decide ((splitLines L).length + (splitLines R).length <
        eng.maxLinesForCharDiff)) p := by
  intro p hp
  have hpre : ∀ q ∈ ((diffLines L R).foldl procPart initPState).pairs,
      PreS q :=
    foldl_procPart_PreS (diffLines L R) initPState (by intro q hq; cases hq)
  exact dmScan_inv _
    (((diffLines L R).foldl procPart initPState).pairs.length) _
    (Nat.le_refl _) hpre p hp

/-- C4: every pair returned by compare has at least one side present; if
both sides are present and neither is Modified, both are Unchanged with
identical content; and if both sides are present and one is Modified, so is
the other. -/
theorem compare_pair_invariant (eng : DiffEngine) (L R : String) :
    ∀ p ∈ (compare eng L R).diffResult.pairs,
      (p.left ≠ none ∨ p.right ≠ none) ∧
      (∀ l r, p.left = some l → p.right = some r →
        ((l.kind ≠ Kind.modified ∧ r.kind ≠ Kind.modified) →
          l.kind = Kind.unchanged ∧ r.kind = Kind.unchanged ∧
            l.content = r.content) ∧
        ((l.kind = Kind.modified ∨ r.kind = Kind.modified) →
          l.kind = Kind.modified ∧ r.kind = Kind.modified)) := by
  intro p hp
  have hpost := compare_PostS eng L R p hp
  rcases hpost with hS | ⟨l, r, h1, h2, h3, h4, -, -⟩
  · rcases hS with ⟨l, h1, h2, h3, -⟩ | ⟨r, h1, h2, h3, -⟩ |
      ⟨l, r, h1, h2, h3, h4, h5, -, -⟩
    · refine ⟨Or.inl (by rw [h1]; exact fun hc => by cases hc), ?_⟩
      intro l2 r2 hl2 hr2
      rw [h2] at hr2
      cases hr2
    · refine ⟨Or.inr (by rw [h2]; exact fun hc => by cases hc), ?_⟩
      intro l2 r2 hl2 hr2
      rw [h1] at hl2
      cases hl2
    · refine ⟨Or.inl (by rw [h1]; exact fun hc => by cases hc), ?_⟩
      intro l2 r2 hl2 hr2
      rw [h1] at hl2
      rw [h2] at hr2
      injection hl2 with hl3
      injection hr2 with hr3
      subst hl3
      subst hr3
      constructor
      · intro _
        exact ⟨h3, h4, h5⟩
      · intro hmod
        rcases hmod with hm | hm
        · rw [h3] at hm; cases hm
        · rw [h4] at hm; cases hm
  · refine ⟨Or.inl (by rw [h1]; exact fun hc => by cases hc), ?_⟩
    intro l2 r2 hl2 hr2
    rw [h1] at hl2
    rw [h2] at hr2
    injection hl2 with hl3
    injection hr2 with hr3
    subst hl3
    subst hr3
    constructor
    · intro hne
      exact absurd h3 hne.1
    · intro _
      exact ⟨h3, h4⟩

/-- Witness for C4 on the single unchanged pair of compare "a" "a". -/
theorem compare_pair_invariant_witness :
    (⟨some ⟨1, "a", Kind.unchanged, none⟩,
      some ⟨1, "a", Kind.unchanged, none⟩⟩ : Pair) ∈
        (compare DiffEngine.new "a" "a").diffResult.pairs ∧
    (((⟨some ⟨1, "a", Kind.unchanged, none⟩,
        some ⟨1, "a", Kind.unchanged, none⟩⟩ : Pair).left ≠ none ∨
      (⟨some ⟨1, "a", Kind.unchanged, none⟩,
        some ⟨1, "a", Kind.unchanged, none⟩⟩ : Pair).right ≠ none) ∧
      (∀ l r,
        (⟨some ⟨1, "a", Kind.unchanged, none⟩,
          some ⟨1, "a", Kind.unchanged, none⟩⟩ : Pair).left = some l →
        (⟨some ⟨1, "a", Kind.unchanged, none⟩,
          some ⟨1, "a", Kind.unchanged, none⟩⟩ : Pair).right = some r →
        ((l.kind ≠ Kind.modified ∧ r.kind ≠ Kind.modified) →
          l.kind = Kind.unchanged ∧ r.kind = Kind.unchanged ∧
            l.content = r.content) ∧
        ((l.kind = Kind.modified ∨ r.kind = Kind.modified) →
          l.kind = Kind.modified ∧ r.kind = Kind.modified))) :=
  ⟨by decide, compare_pair_invariant DiffEngine.new "a" "a" _ (by decide)⟩

/-- The pairing loop on common-only parts builds only both-unchanged
pairs. -/
theorem foldl_procPart_BU (parts : List (Seg String))
    (hparts : ∀ pt ∈ parts, pt.added = false ∧ pt.removed = false) :
    ∀ st : PState, (∀ p ∈ st.pairs, BothUnchanged p) →
      ∀ p ∈ (parts.foldl procPart st).pairs, BothUnchanged p := by
  induction parts with
  | nil => intro st h; exact h
  | cons pt parts ih =>
    intro st h
    obtain ⟨hpa, hpr⟩ := hparts pt (List.mem_cons_self _ _)
    apply ih (fun q hq => hparts q (List.mem_cons_of_mem _ hq))
    show ∀ p ∈ (pt.value.foldl (procLine pt.added pt.removed) st).pairs,
      BothUnchanged p
    induction pt.value generalizing st with
    | nil => exact h
    | cons line lines ih2 =>
      apply ih2
      intro p hp
      simp only [procLine, hpa, hpr, if_false, Bool.false_eq_true] at hp
      rcases List.mem_append.mp hp with hp1 | hp2
      · exact h p hp1
      · rcases List.mem_singleton.mp hp2 with rfl
        exact ⟨_, _, rfl, rfl, rfl, rfl, rfl⟩

/-- A both-unchanged pair never starts a removed run. -/
theorem BothUnchanged_not_remStart (p : Pair) (h : BothUnchanged p) :
    isRemPair p = false := by
  obtain ⟨l, r, h1, h2, -, -, -⟩ := h
  simp [isRemPair, h1, h2]

/-- A both-unchanged pair is not a diff pair. -/
theorem BothUnchanged_not_diff (p : Pair) (h : BothUnchanged p) :
    isDiffPair p = false := by
  obtain ⟨l, r, h1, h2, h3, h4, -⟩ := h
  simp [isDiffPair, h1, h2, h3, h4]

/-- The block fold never opens a block over non-diff pairs. -/
theorem gdb_fold_nondiff : ∀ (l : List (Nat × Pair)),
    (∀ ip ∈ l, isDiffPair ip.2 = false) →
    l.foldl gdbStep ([], none) = ([], none) := by
  intro l
  induction l with
  | nil => intro _; rfl
  | cons ip l ih =>
    intro h
    have hip := h ip (List.mem_cons_self _ _)
    have hstep : gdbStep ([], none) ip = ([], none) := by
      simp [gdbStep, hip]
    rw [List.foldl_cons, hstep]
    exact ih (fun q hq => h q (List.mem_cons_of_mem _ hq))

/-- Grouping a result whose pairs are all non-diff yields no blocks. -/
theorem groupDiffBlocks_of_nondiff (res : DiffResult)
    (h : ∀ p ∈ res.pairs, isDiffPair p = false) :
    groupDiffBlocks res = [] := by
  rw [groupDiffBlocks]
  have henum : ∀ ip ∈ res.pairs.enum, isDiffPair ip.2 = false := by
    intro ip hip
    apply h
    have h2 : ip.2 ∈ res.pairs.enum.map Prod.snd :=
      List.mem_map_of_mem Prod.snd hip
    rwa [List.enum_map_snd] at h2
  rw [gdb_fold_nondiff res.pairs.enum henum]

/-- The parts of a self-alignment carry no flags. -/
theorem diffLines_self_flags (X : String) :
    ∀ pt ∈ diffLines X X, pt.added = false ∧ pt.removed = false := by
  intro pt hpt
  have hd : diffLines X X = (splitTextSpec X).map
      (fun c => ⟨false, false, [c]⟩) := by
    show alignWith (splitTextSpec X) (splitTextSpec X)
      (lcs (splitTextSpec X) (splitTextSpec X)) = _
    rw [lcs_self, alignWith_self]
  rw [hd] at hpt
  obtain ⟨c, -, rfl⟩ := List.mem_map.mp hpt
  exact ⟨rfl, rfl⟩

/-- C9: comparing any text with itself yields only both-present unchanged
pairs with identical content and no blocks; comparing two empty strings
yields no pairs at all. -/
theorem compare_self_unchanged (eng : DiffEngine) (X : String) :
    (∀ p ∈ (compare eng X X).diffResult.pairs,
      ∃ l r, p.left = some l ∧ p.right = some r ∧
        l.kind = Kind.unchanged ∧ r.kind = Kind.unchanged ∧
        l.content = r.content) ∧
    (compare eng X X).diffBlocks = [] ∧
    (compare eng "" "").diffResult.pairs = [] := by
  have hBUpre : ∀ p ∈ ((diffLines X X).foldl procPart initPState).pairs,
      BothUnchanged p :=
    foldl_procPart_BU (diffLines X X) (diffLines_self_flags X) initPState
      (by intro q hq; cases hq)
  have hpairs : ∀ (e : Bool), (processDiff (diffLines X X) e).pairs =
      ((diffLines X X).foldl procPart initPState).pairs := by
    intro e
    show dmScan e _ = _
    exact dmScan_id e _
      (fun p hp => BothUnchanged_not_remStart p (hBUpre p hp))
  have hres : (compare eng X X).diffResult =
      processDiff (diffLines X X)
        (decide ((splitLines X).length + (splitLines X).length <
          eng.maxLinesForCharDiff)) := rfl
  have hBU : ∀ p ∈ (compare eng X X).diffResult.pairs, BothUnchanged p := by
    intro p hp
    rw [hres, hpairs] at hp
    exact hBUpre p hp
  refine ⟨fun p hp => hBU p hp, ?_, rfl⟩
  show groupDiffBlocks (processDiff (diffLines X X) _) = []
  apply groupDiffBlocks_of_nondiff
  intro p hp
  rw [hpairs] at hp
  exact BothUnchanged_not_diff p (hBUpre p hp)

/-- Appending n+1 to the 1-based range extends it by one. -/
theorem range'_one_concat (n : Nat) :
    List.range' 1 (n + 1) = List.range' 1 n ++ [n + 1] := by
  rw [List.range'_concat]
  simp [Nat.add_comm]

/-- One pairing step keeps both sides' line lists numbered 1..N with the
counters one past the end. -/
theorem procLine_nums (a r : Bool) (line : String) (st : PState)
    (h : st.left.map Line.lineNum = List.range' 1 st.left.length ∧
      st.leftLineNum = st.left.length + 1 ∧
      st.right.map Line.lineNum = List.range' 1 st.right.length ∧
      st.rightLineNum = st.right.length + 1) :
    (procLine a r st line).left.map Line.lineNum =
      List.range' 1 (procLine a r st line).left.length ∧
    (procLine a r st line).leftLineNum =
      (procLine a r st line).left.length + 1 ∧
    (procLine a r st line).right.map Line.lineNum =
      List.range' 1 (procLine a r st line).right.length ∧
    (procLine a r st line).rightLineNum =
      (procLine a r st line).right.length + 1 := by
  obtain ⟨h1, h2, h3, h4⟩ := h
  by_cases ha : a = true
  · simp only [procLine, ha, if_true]
    refine ⟨h1, h2, ?_, by simp [h4]⟩
    simp only [List.map_append, List.map_cons, List.map_nil,
      List.length_append, List.length_cons, List.length_nil]
    rw [h3, h4]
    rw [show st.right.length + (0 + 1) = st.right.length + 1 from by omega]
    exact (range'_one_concat st.right.length).symm
  · by_cases hr : r = true
    · simp only [procLine, ha, hr, if_true, if_false, Bool.false_eq_true]
      refine ⟨?_, by simp [h2], h3, h4⟩
      simp only [List.map_append, List.map_cons, List.map_nil,
        List.length_append, List.length_cons, List.length_nil]
      rw [h1, h2]
      rw [show st.left.length + (0 + 1) = st.left.length + 1 from by omega]
      exact (range'_one_concat st.left.length).symm
    · simp only [procLine, ha, hr, if_false, Bool.false_eq_true]
      refine ⟨?_, by simp [h2], ?_, by simp [h4]⟩
      · simp only [List.map_append, List.map_cons, List.map_nil,
          List.length_append, List.length_cons, List.length_nil]
        rw [h1, h2]
        rw [show st.left.length + (0 + 1) = st.left.length + 1 from by omega]
        exact (range'_one_concat st.left.length).symm
      · simp only [List.map_append, List.map_cons, List.map_nil,
          List.length_append, List.length_cons, List.length_nil]
        rw [h3, h4]
        rw [show st.right.length + (0 + 1) = st.right.length + 1 from by omega]
        exact (range'_one_concat st.right.length).symm

/-- The whole pairing loop keeps both sides numbered 1..N. -/
theorem foldl_procPart_nums (parts : List (Seg String)) :
    ∀ st : PState,
      (st.left.map Line.lineNum = List.range' 1 st.left.length ∧
        st.leftLineNum = st.left.length + 1 ∧
        st.right.map Line.lineNum = List.range' 1 st.right.length ∧
        st.rightLineNum = st.right.length + 1) →
      ((parts.foldl procPart st).left.map Line.lineNum =
        List.range' 1 (parts.foldl procPart st).left.length ∧
      (parts.foldl procPart st).right.map Line.lineNum =
        List.range' 1 (parts.foldl procPart st).right.length) := by
  induction parts with
  | nil => intro st h; exact ⟨h.1, h.2.2.1⟩
  | cons pt parts ih =>
    intro st h
    apply ih
    show (let st2 := pt.value.foldl (procLine pt.added pt.removed) st
      st2.left.map Line.lineNum = List.range' 1 st2.left.length ∧
      st2.leftLineNum = st2.left.length + 1 ∧
      st2.right.map Line.lineNum = List.range' 1 st2.right.length ∧
      st2.rightLineNum = st2.right.length + 1)
    induction pt.value generalizing st with
    | nil => exact h
    | cons line lines ih2 =>
      exact ih2 (procLine pt.added pt.removed st line)
        (procLine_nums pt.added pt.removed line st h)

/-- C8: on each side of a compare result, the lineNumber values of the
lines in creation order are exactly 1, 2, ..., N with no gaps or repeats;
numbers are assigned by the per-side counters at pairing time and the
modification pass never renumbers. -/
theorem compare_lineNumbering (eng : DiffEngine) (L R : String) :
    (compare eng L R).diffResult.left.map Line.lineNum =
      List.range' 1 (compare eng L R).diffResult.left.length ∧
    (compare eng L R).diffResult.right.map Line.lineNum =
      List.range' 1 (compare eng L R).diffResult.right.length := by
  have hl : (compare eng L R).diffResult.left =
      ((diffLines L R).foldl procPart initPState).left := rfl
  have hr : (compare eng L R).diffResult.right =
      ((diffLines L R).foldl procPart initPState).right := rfl
  rw [hl, hr]
  exact foldl_procPart_nums (diffLines L R) initPState
    ⟨rfl, rfl, rfl, rfl⟩

/-- One pairing step creates lines with charDiff absent. -/
theorem procLine_charDiffNone (a r : Bool) (line : String) (st : PState)
    (h1 : ∀ x ∈ st.left, x.charDiff = none)
    (h2 : ∀ x ∈ st.right, x.charDiff = none) :
    (∀ x ∈ (procLine a r st line).left, x.charDiff = none) ∧
      (∀ x ∈ (procLine a r st line).right, x.charDiff = none) := by
  by_cases ha : a = true
  · simp only [procLine, ha, if_true]
    refine ⟨h1, ?_⟩
    intro x hx
    rcases List.mem_append.mp hx with hx1 | hx2
    · exact h2 x hx1
    · rcases List.mem_singleton.mp hx2 with rfl
      rfl
  · by_cases hr : r = true
    · simp only [procLine, ha, hr, if_true, if_false, Bool.false_eq_true]
      refine ⟨?_, h2⟩
      intro x hx
      rcases List.mem_append.mp hx with hx1 | hx2
      · exact h1 x hx1
      · rcases List.mem_singleton.mp hx2 with rfl
        rfl
    · simp only [procLine, ha, hr, if_false, Bool.false_eq_true]
      constructor
      all_goals
        intro x hx
        rcases List.mem_append.mp hx with hx1 | hx2
      · exact h1 x hx1
      · rcases List.mem_singleton.mp hx2 with rfl
        rfl
      · exact h2 x hx1
      · rcases List.mem_singleton.mp hx2 with rfl
        rfl

/-- The pairing loop creates every line with charDiff absent. -/
theorem foldl_procPart_charDiffNone (parts : List (Seg String)) :
    ∀ st : PState, (∀ x ∈ st.left, x.charDiff = none) →
      (∀ x ∈ st.right, x.charDiff = none) →
      ((∀ x ∈ (parts.foldl procPart st).left, x.charDiff = none) ∧
        (∀ x ∈ (parts.foldl procPart st).right, x.charDiff = none)) := by
  induction parts with
  | nil => intro st h1 h2; exact ⟨h1, h2⟩
  | cons pt parts ih =>
    intro st h1 h2
    have hstep : (∀ x ∈ (pt.value.foldl (procLine pt.added pt.removed) st).left,
        x.charDiff = none) ∧
        (∀ x ∈ (pt.value.foldl (procLine pt.added pt.removed) st).right,
          x.charDiff = none) := by
      clear ih
      induction pt.value generalizing st with
      | nil => exact ⟨h1, h2⟩
      | cons line lines ih2 =>
        obtain ⟨g1, g2⟩ := procLine_charDiffNone pt.added pt.removed line st h1 h2
        exact ih2 (procLine pt.added pt.removed st line) g1 g2
    exact ih _ hstep.1 hstep.2

/-- C7: char-level diffing happens exactly below the 5000-line threshold on
the combined splitLines counts: below it every pair with a Modified side
carries a charDiff on both sides, and at or above it charDiff is absent on
every line of the result. -/
theorem compare_charDiff_threshold (eng : DiffEngine) (L R : String)
    (hm : eng.maxLinesForCharDiff = 5000) :
    ((splitLines L).length + (splitLines R).length < 5000 →
      ∀ p ∈ (compare eng L R).diffResult.pairs, ∀ l r,
        p.left = some l → p.right = some r →
        (l.kind = Kind.modified ∨ r.kind = Kind.modified) →
        l.charDiff.isSome = true ∧ r.charDiff.isSome = true) ∧
    (5000 ≤ (splitLines L).length + (splitLines R).length →
      (∀ p ∈ (compare eng L R).diffResult.pairs,
        (∀ l, p.left = some l → l.charDiff = none) ∧
        (∀ r, p.right = some r → r.charDiff = none)) ∧
      (∀ l ∈ (compare eng L R).diffResult.left, l.charDiff = none) ∧
      (∀ r ∈ (compare eng L R).diffResult.right, r.charDiff = none)) := by
  constructor
  · intro hlt p hp l r hl hr hmod
    have he : decide ((splitLines L).length + (splitLines R).length <
        eng.maxLinesForCharDiff) = true := by
      rw [hm]
      exact decide_eq_true hlt
    have hpost := compare_PostS eng L R p hp
    rw [he] at hpost
    rcases hpost with hS | ⟨l2, r2, g1, g2, g3, g4, g5, g6⟩
    · rcases hS with ⟨l2, g1, g2, g3, -⟩ | ⟨r2, g1, g2, g3, -⟩ |
        ⟨l2, r2, g1, g2, g3, g4, -, -, -⟩
      · rw [g2] at hr; cases hr
      · rw [g1] at hl; cases hl
      · rw [g1] at hl
        rw [g2] at hr
        injection hl with hl2
        injection hr with hr2
        subst hl2
        subst hr2
        rcases hmod with hc | hc
        · rw [g3] at hc; cases hc
        · rw [g4] at hc; cases hc
    · rw [g1] at hl
      rw [g2] at hr
      injection hl with hl2
      injection hr with hr2
      subst hl2
      subst hr2
      exact ⟨g5, g6⟩
  · intro hge
    have he : decide ((splitLines L).length + (splitLines R).length <
        eng.maxLinesForCharDiff) = false := by
      rw [hm]
      exact decide_eq_false (Nat.not_lt.mpr hge)
    refine ⟨?_, ?_, ?_⟩
    · intro p hp
      have hpost := compare_PostS eng L R p hp
      rw [he] at hpost
      rcases hpost with hS | ⟨l2, r2, g1, g2, g3, g4, g5, g6⟩
      · rcases hS with ⟨l2, g1, g2, g3, g4⟩ | ⟨r2, g1, g2, g3, g4⟩ |
          ⟨l2, r2, g1, g2, g3, g4, g5, g6, g7⟩
        · constructor
          · intro l hl
            rw [g1] at hl
            injection hl with hl2
            subst hl2
            exact g4
          · intro r hr
            rw [g2] at hr
            cases hr
        · constructor
          · intro l hl
            rw [g1] at hl
            cases hl
          · intro r hr
            rw [g2] at hr
            injection hr with hr2
            subst hr2
            exact g4
        · constructor
          · intro l hl
            rw [g1] at hl
            injection hl with hl2
            subst hl2
            exact g6
          · intro r hr
            rw [g2] at hr
            injection hr with hr2
            subst hr2
            exact g7
      · constructor
        · intro l hl
          rw [g1] at hl
          injection hl with hl2
          subst hl2
          exact Option.not_isSome_iff_eq_none.mp (by rw [g5]; exact fun hc => by cases hc)
        · intro r hr
          rw [g2] at hr
          injection hr with hr2
          subst hr2
          exact Option.not_isSome_iff_eq_none.mp (by rw [g6]; exact fun hc => by cases hc)
    · intro l hl
      have hc := foldl_procPart_charDiffNone (diffLines L R) initPState
        (by intro x hx; cases hx) (by intro x hx; cases hx)
      exact hc.1 l hl
    · intro r hr
      have hc := foldl_procPart_charDiffNone (diffLines L R) initPState
        (by intro x hx; cases hx) (by intro x hx; cases hx)
      exact hc.2 r hr

/-- Witness for C7 on a fresh engine comparing "a" with "b". -/
theorem compare_charDiff_threshold_witness :
    DiffEngine.new.maxLinesForCharDiff = 5000 ∧
    (((splitLines "a").length + (splitLines "b").length < 5000 →
      ∀ p ∈ (compare DiffEngine.new "a" "b").diffResult.pairs, ∀ l r,
        p.left = some l → p.right = some r →
        (l.kind = Kind.modified ∨ r.kind = Kind.modified) →
        l.charDiff.isSome = true ∧ r.charDiff.isSome = true) ∧
    (5000 ≤ (splitLines "a").length + (splitLines "b").length →
      (∀ p ∈ (compare DiffEngine.new "a" "b").diffResult.pairs,
        (∀ l, p.left = some l → l.charDiff = none) ∧
        (∀ r, p.right = some r → r.charDiff = none)) ∧
      (∀ l ∈ (compare DiffEngine.new "a" "b").diffResult.left,
        l.charDiff = none) ∧
      (∀ r ∈ (compare DiffEngine.new "a" "b").diffResult.right,
        r.charDiff = none))) :=
  ⟨rfl, compare_charDiff_threshold DiffEngine.new "a" "b" rfl⟩

/-- Field-wise effect of the statistics fold: each counter gains the count
of the pairs its source branch matches, and the precomputed totals are
untouched. -/
theorem statStep_fold (l : List Pair) : ∀ c : Stats,
    (l.foldl statStep c).added = c.added + l.countP rightOnly ∧
    (l.foldl statStep c).removed = c.removed + l.countP leftOnly ∧
    (l.foldl statStep c).modified = c.modified +
      l.countP (fun p => match p.left, p.right with
        | some l2, some _ => decide (l2.kind = Kind.modified)
        | _, _ => false) ∧
    (l.foldl statStep c).unchanged = c.unchanged +
      l.countP (fun p => match p.left, p.right with
        | some l2, some _ => !decide (l2.kind = Kind.modified)
        | _, _ => false) ∧
    (l.foldl statStep c).totalDiffs = c.totalDiffs ∧
    (l.foldl statStep c).leftLines = c.leftLines ∧
    (l.foldl statStep c).rightLines = c.rightLines := by
  induction l with
  | nil => intro c; simp
  | cons p l ih =>
    intro c
    rw [List.foldl_cons]
    cases hl : p.left with
    | none =>
      cases hr : p.right with
      | none =>
        have hs : statStep c p = c := by simp [statStep, hl, hr]
        rw [hs]
        obtain ⟨i1, i2, i3, i4, i5, i6, i7⟩ := ih c
        refine ⟨?_, ?_, ?_, ?_, ?_, ?_, ?_⟩ <;>
          simp [List.countP_cons, leftOnly, rightOnly, hl, hr,
            i1, i2, i3, i4, i5, i6, i7]
      | some r =>
        have hs : statStep c p = { c with added := c.added + 1 } := by
          simp [statStep, hl, hr]
        rw [hs]
        obtain ⟨i1, i2, i3, i4, i5, i6, i7⟩ := ih { c with added := c.added + 1 }
        refine ⟨?_, ?_, ?_, ?_, ?_, ?_, ?_⟩ <;>
          simp [List.countP_cons, leftOnly, rightOnly, hl, hr,
            i1, i2, i3, i4, i5, i6, i7] <;>
          omega
    | some l2 =>
      cases hr : p.right with
      | none =>
        have hs : statStep c p = { c with removed := c.removed + 1 } := by
          simp [statStep, hl, hr]
        rw [hs]
        obtain ⟨i1, i2, i3, i4, i5, i6, i7⟩ :=
          ih { c with removed := c.removed + 1 }
        refine ⟨?_, ?_, ?_, ?_, ?_, ?_, ?_⟩ <;>
          simp [List.countP_cons, leftOnly, rightOnly, hl, hr,
            i1, i2, i3, i4, i5, i6, i7] <;>
          omega
      | some r =>
        by_cases hk : l2.kind = Kind.modified
        · have hs : statStep c p = { c with modified := c.modified + 1 } := by
            simp [statStep, hl, hr, hk]
          rw [hs]
          obtain ⟨i1, i2, i3, i4, i5, i6, i7⟩ :=
            ih { c with modified := c.modified + 1 }
          refine ⟨?_, ?_, ?_, ?_, ?_, ?_, ?_⟩ <;>
            simp [List.countP_cons, leftOnly, rightOnly, hl, hr, hk,
              i1, i2, i3, i4, i5, i6, i7] <;>
            omega
        · have hs : statStep c p = { c with unchanged := c.unchanged + 1 } := by
            simp [statStep, hl, hr, hk]
          rw [hs]
          obtain ⟨i1, i2, i3, i4, i5, i6, i7⟩ :=
            ih { c with unchanged := c.unchanged + 1 }
          refine ⟨?_, ?_, ?_, ?_, ?_, ?_, ?_⟩ <;>
            simp [List.countP_cons, leftOnly, rightOnly, hl, hr, hk,
              i1, i2, i3, i4, i5, i6, i7] <;>
            omega

/-- On PostS pairs the source's branch predicates agree with the claim's
statistic predicates. -/
theorem PostS_stat_preds (e : Bool) (p : Pair) (h : PostS e p) :
    (match p.left, p.right with
      | some l2, some _ => decide (l2.kind = Kind.modified)
      | _, _ => false) = claimModP p ∧
    (match p.left, p.right with
      | some l2, some _ => !decide (l2.kind = Kind.modified)
      | _, _ => false) = claimUnchP p := by
  rcases h with hS | ⟨l, r, h1, h2, h3, h4, -, -⟩
  · rcases hS with ⟨l, h1, h2, h3, -⟩ | ⟨r, h1, h2, h3, -⟩ |
      ⟨l, r, h1, h2, h3, h4, -, -, -⟩
    · simp [h1, h2, h3, claimModP, claimUnchP]
    · simp [h1, h2, claimModP, claimUnchP]
    · simp [h1, h2, h3, h4, claimModP, claimUnchP]
  · simp [h1, h2, h3, h4, claimModP, claimUnchP]

/-- C6 (amended): getStats counts added/removed/modified/unchanged pairs as
claimed, totalDiffs is the block count, and leftLines/rightLines are the
lengths of the source splitLines outputs (which keep the phantom trailing
empty element, unlike the section 4.1 counts the claim names). -/
theorem getStats_amended (eng : DiffEngine) (L R : String) :
    (getStats (compare eng L R)).added =
      (compare eng L R).diffResult.pairs.countP rightOnly ∧
    (getStats (compare eng L R)).removed =
      (compare eng L R).diffResult.pairs.countP leftOnly ∧
    (getStats (compare eng L R)).modified =
      (compare eng L R).diffResult.pairs.countP claimModP ∧
    (getStats (compare eng L R)).unchanged =
      (compare eng L R).diffResult.pairs.countP claimUnchP ∧
    (getStats (compare eng L R)).totalDiffs =
      (getDiffBlocks (compare eng L R)).length ∧
    (getStats (compare eng L R)).leftLines = (splitLines L).length ∧
    (getStats (compare eng L R)).rightLines = (splitLines R).length := by
  obtain ⟨i1, i2, i3, i4, i5, i6, i7⟩ :=
    statStep_fold (compare eng L R).diffResult.pairs
      { added := 0, removed := 0, modified := 0, unchanged := 0,
        totalDiffs := (compare eng L R).diffBlocks.length,
        leftLines := (compare eng L R).leftLines.length,
        rightLines := (compare eng L R).rightLines.length }
  have hmod : (compare eng L R).diffResult.pairs.countP
      (fun p => match p.left, p.right with
        | some l2, some _ => decide (l2.kind = Kind.modified)
        | _, _ => false) =
      (compare eng L R).diffResult.pairs.countP claimModP :=
    List.countP_congr (fun p hp => by
      rw [(PostS_stat_preds _ p (compare_PostS eng L R p hp)).1])
  have hunch : (compare eng L R).diffResult.pairs.countP
      (fun p => match p.left, p.right with
        | some l2, some _ => !decide (l2.kind = Kind.modified)
        | _, _ => false) =
      (compare eng L R).diffResult.pairs.countP claimUnchP :=
    List.countP_congr (fun p hp => by
      rw [(PostS_stat_preds _ p (compare_PostS eng L R p hp)).2])
  have hgs : getStats (compare eng L R) =
      (compare eng L R).diffResult.pairs.foldl statStep
        { added := 0, removed := 0, modified := 0, unchanged := 0,
          totalDiffs := (compare eng L R).diffBlocks.length,
          leftLines := (compare eng L R).leftLines.length,
          rightLines := (compare eng L R).rightLines.length } := rfl
  have hll : (compare eng L R).leftLines = splitLines L := rfl
  have hrl : (compare eng L R).rightLines = splitLines R := rfl
  rw [hgs]
  rw [hmod] at i3
  rw [hunch] at i4
  exact ⟨by simp [i1], by simp [i2], by simp [i3], by simp [i4],
    by simp [i5, getDiffBlocks],
    by rw [i6]; exact congrArg List.length hll,
    by rw [i7]; exact congrArg List.length hrl⟩

/-- C6 counterexample: for the input "a\n" the source reports leftLines =
2 (the splitLines output keeps the phantom trailing empty element), while
the section 4.1 line sequence of "a\n" is ["a"], of length 1. -/
theorem getStats_leftLines_counterexample :
    (getStats (compare DiffEngine.new "a\n" "a\n")).leftLines = 2 ∧
    splitTextSpec "a\n" = ["a"] ∧
    (getStats (compare DiffEngine.new "a\n" "a\n")).leftLines ≠
      (splitTextSpec "a\n").length := by
  decide

/-- One groupDiffBlocks step preserves the scan invariant. -/
theorem gdbStep_inv (ps : List Pair) (k : Nat) (p : Pair)
    (hdropk : ps.drop k = p :: ps.drop (k + 1))
    (st : List Block × Option Block) (hinv : gdbInv ps k st) :
    gdbInv ps (k + 1) (gdbStep st (k, p)) := by
  unfold gdbInv at hinv ⊢
  obtain ⟨hA, hB, hC⟩ := hinv
  have hklen : k < ps.length := by
    have h1 : (ps.drop k).length = ps.length - k := by simp
    rw [hdropk] at h1
    simp only [List.length_cons] at h1
    omega
  have hgetk : ps[k]? = some p := by
    have h2 : (ps.drop k)[0]? = some p := by rw [hdropk]; simp
    rwa [List.getElem?_drop, Nat.add_zero] at h2
  by_cases hdiff : isDiffPair p = true
  · cases hcur : st.2 with
    | none =>
      rw [hcur] at hC
      have hstep : gdbStep st (k, p) =
          (st.1, some { startIndex := k, endIndex := k, pairs := [p] }) := by
        simp [gdbStep, hdiff, hcur]
      rw [hstep]
      refine ⟨?_, hB, ?_⟩
      · intro b hb
        obtain ⟨hw, hle⟩ := hA b hb
        exact ⟨hw, by omega⟩
      · refine ⟨⟨Nat.le_refl k, hklen, ?_, ?_, ?_⟩, rfl, ?_⟩
        · rw [show k + 1 - k = 1 from by omega, hdropk]
          rfl
        · intro q hq
          rcases List.mem_singleton.mp hq with rfl
          exact hdiff
        · exact hC
        · intro b' hb'
          have hb2 := (hA b' hb').2
          show b'.endIndex + 1 < k
          omega
    | some b =>
      rw [hcur] at hC
      obtain ⟨hopen, hend, hsep⟩ := hC
      unfold BlockOpen at hopen
      obtain ⟨hse, hel, hw, hdiffall, hbefore⟩ := hopen
      have hstep : gdbStep st (k, p) =
          (st.1, some { startIndex := b.startIndex, endIndex := k, pairs := b.pairs ++ [p] }) := by
        simp [gdbStep, hdiff, hcur]
      rw [hstep]
      refine ⟨?_, hB, ?_⟩
      · intro b2 hb2
        obtain ⟨hw2, hle2⟩ := hA b2 hb2
        exact ⟨hw2, by omega⟩
      · refine ⟨⟨by show b.startIndex ≤ k; omega, hklen, ?_, ?_, hbefore⟩,
          rfl, ?_⟩
        · have hidx : (ps.drop b.startIndex)[k - b.startIndex]? = some p := by
            rw [List.getElem?_drop]
            rw [show b.startIndex + (k - b.startIndex) = k from by omega]
            exact hgetk
          rw [show k + 1 - b.startIndex = (k - b.startIndex) + 1 from by
            omega]
          rw [List.take_succ, hidx, hw]
          rw [show b.endIndex + 1 - b.startIndex = k - b.startIndex from by
            omega]
          rfl
        · intro q hq
          rcases List.mem_append.mp hq with hq1 | hq2
          · exact hdiffall q hq1
          · rcases List.mem_singleton.mp hq2 with rfl
            exact hdiff
        · intro b' hb'
          exact hsep b' hb'
  · have hdf : isDiffPair p = false := by
      cases hx : isDiffPair p
      · rfl
      · exact absurd hx hdiff
    cases hcur : st.2 with
    | none =>
      have hstep : gdbStep st (k, p) = st := by
        simp [gdbStep, hdf, hcur]
      rw [hstep]
      refine ⟨?_, hB, ?_⟩
      · intro b hb
        obtain ⟨hw2, hle2⟩ := hA b hb
        exact ⟨hw2, by omega⟩
      · rw [hcur]
        exact Or.inr ⟨p, by simpa using hgetk, hdf⟩
    | some b =>
      rw [hcur] at hC
      obtain ⟨hopen, hend, hsep⟩ := hC
      unfold BlockOpen at hopen
      obtain ⟨hse, hel, hw, hdiffall, hbefore⟩ := hopen
      have hstep : gdbStep st (k, p) = (st.1 ++ [b], none) := by
        simp [gdbStep, hdf, hcur]
      rw [hstep]
      refine ⟨?_, ?_, ?_⟩
      · intro b2 hb2
        rcases List.mem_append.mp hb2 with hb3 | hb4
        · obtain ⟨hw2, hle2⟩ := hA b2 hb3
          exact ⟨hw2, by omega⟩
        · rcases List.mem_singleton.mp hb4 with rfl
          refine ⟨⟨hse, hel, hw, hdiffall, hbefore, ?_⟩, by omega⟩
          exact Or.inr ⟨p, by rw [hend]; exact hgetk, hdf⟩
      · rw [List.pairwise_append]
        refine ⟨hB, List.pairwise_singleton _ _, ?_⟩
        intro a ha b' hb'
        rcases List.mem_singleton.mp hb' with rfl
        exact hsep a ha
      · exact Or.inr ⟨p, by simpa using hgetk, hdf⟩

/-- The groupDiffBlocks fold carries the invariant across any tail of the
pair list. -/
theorem gdb_fold_inv (ps : List Pair) : ∀ (l : List Pair) (k : Nat)
    (st : List Block × Option Block), ps.drop k = l → gdbInv ps k st →
    gdbInv ps (k + l.length) ((List.enumFrom k l).foldl gdbStep st) := by
  intro l
  induction l with
  | nil => intro k st _ hinv; simpa using hinv
  | cons p t ih =>
    intro k st hdrop hinv
    have ht : ps.drop (k + 1) = t := by
      rw [← List.tail_drop, hdrop]
      rfl
    have hdropk : ps.drop k = p :: ps.drop (k + 1) := by
      rw [hdrop, ht]
    have hstep := gdbStep_inv ps k p hdropk st hinv
    have hrec := ih (k + 1) (gdbStep st (k, p)) ht hstep
    rw [show List.enumFrom k (p :: t) = (k, p) :: List.enumFrom (k + 1) t
      from rfl, List.foldl_cons]
    rw [show k + (p :: t).length = (k + 1) + t.length from by
      simp only [List.length_cons]; omega]
    exact hrec

/-- The blocks produced by groupDiffBlocks are pairwise separated, in
order, and well formed against the pair list. -/
theorem groupDiffBlocks_wf (res : DiffResult) :
    List.Chain' sepBlocks (groupDiffBlocks res) ∧
    ∀ b ∈ groupDiffBlocks res, BlockWF res.pairs b := by
  have hinit : gdbInv res.pairs 0 ([], none) := by
    unfold gdbInv
    refine ⟨?_, List.Pairwise.nil, Or.inl rfl⟩
    intro b hb
    cases hb
  have hfold := gdb_fold_inv res.pairs res.pairs 0 ([], none) (by simp) hinit
  have hen : List.enumFrom 0 res.pairs = res.pairs.enum := rfl
  rw [hen, show (0 + res.pairs.length) = res.pairs.length from by omega]
    at hfold
  unfold gdbInv at hfold
  obtain ⟨hA, hB, hC⟩ := hfold
  cases hsnd : (res.pairs.enum.foldl gdbStep ([], none)).2 with
  | none =>
    rw [hsnd] at hC
    have hgdb : groupDiffBlocks res =
        (res.pairs.enum.foldl gdbStep ([], none)).1 := by
      simp only [groupDiffBlocks, hsnd]
    rw [hgdb]
    exact ⟨hB.chain', fun b hb => (hA b hb).1⟩
  | some b =>
    rw [hsnd] at hC
    obtain ⟨hopen, hend, hsep⟩ := hC
    unfold BlockOpen at hopen
    obtain ⟨hse, hel, hw, hdiffall, hbefore⟩ := hopen
    have hgdb : groupDiffBlocks res =
        (res.pairs.enum.foldl gdbStep ([], none)).1 ++ [b] := by
      simp only [groupDiffBlocks, hsnd]
    rw [hgdb]
    constructor
    · apply List.Pairwise.chain'
      rw [List.pairwise_append]
      refine ⟨hB, List.pairwise_singleton _ _, ?_⟩
      intro a ha b' hb'
      rcases List.mem_singleton.mp hb' with rfl
      exact hsep a ha
    · intro b2 hb2
      rcases List.mem_append.mp hb2 with hb3 | hb4
      · exact (hA b2 hb3).1
      · rcases List.mem_singleton.mp hb4 with rfl
        exact ⟨hse, hel, hw, hdiffall, hbefore, Or.inl hend⟩

/-- C5: after any compare call, getDiffBlocks returns blocks in ascending
order, pairwise neither overlapping nor adjacent (the pairs around each
block are not diff pairs), each block holding exactly a maximal contiguous
window of diff pairs of the final pair sequence. -/
theorem getDiffBlocks_blocks_wf (eng : DiffEngine) (L R : String) :
    List.Chain' sepBlocks (getDiffBlocks (compare eng L R)) ∧
    ∀ b ∈ getDiffBlocks (compare eng L R),
      BlockWF (getResult (compare eng L R)).pairs b := by
  have h1 : getDiffBlocks (compare eng L R) =
      groupDiffBlocks ((compare eng L R).diffResult) := rfl
  have h2 : getResult (compare eng L R) = (compare eng L R).diffResult := rfl
  rw [h1, h2]
  exact groupDiffBlocks_wf _

/-- Witness for C5: at compare DiffEngine.new "a" "b" the block list is a
single well-separated block holding the merged modified pair at index 0. -/
theorem getDiffBlocks_blocks_wf_witness :
    List.Chain' sepBlocks (getDiffBlocks (compare DiffEngine.new "a" "b")) ∧
    BlockWF (getResult (compare DiffEngine.new "a" "b")).pairs
      { startIndex := 0, endIndex := 0, pairs := [wmPair] } :=
  ⟨(getDiffBlocks_blocks_wf DiffEngine.new "a" "b").1,
   (getDiffBlocks_blocks_wf DiffEngine.new "a" "b").2 _ (by decide)⟩
